import Mathlib

/-!
# Verification of the opine floating-point codec and test harness

This file is a shallow embedding, over `Nat`/`Int`, of the parts of the
opine repository that the verified properties concern:

* the format/encoding data model (`src/include/opine/core/format.hpp`,
  `encoding.hpp`, `enums.hpp`, `float.hpp`);
* the two independently written decoders
  (`Harness.decodeToMpfr` from `src/tests/harness/impl_mpfr.hpp` and
  `Oracle.decodeToMpfr` from `src/tests/oracle/mpfr_exact.hpp`);
* the rounder `Harness.mpfrRoundToFormat` (`impl_mpfr.hpp`; the oracle
  copy in `mpfr_exact.hpp` is line-for-line semantically identical);
* the differential harness, comparator and generators
  (`src/tests/harness/test_harness.hpp`).

Machine words of the C++ `BitsType` (an unsigned integer type of `W`
bits holding patterns of a format of `total_bits ≤ W` bits) are
represented as natural numbers, with `% 2 ^ W` inserted exactly where
the C++ arithmetic wraps.  MPFR values produced and consumed by the
code are represented exactly by the inductive type `MVal`: the code
works at 256-bit precision, which is exact for every value any format
up to 128 bits can produce, so arbitrary-precision dyadic arithmetic
over `ℕ × ℤ` is a faithful model.
-/

namespace Opine

/-- Generic bitfield extraction, `extractField` from
`src/tests/harness/ops.hpp` (the copy in `mpfr_exact.hpp`'s `detail`
namespace is identical): returns 0 when `width = 0`, otherwise
`(bits >> offset) & ((1 << width) - 1)`. -/
def extractField (bits offset width : ℕ) : ℕ :=
  if width = 0 then 0 else (bits >>> offset) &&& ((1 <<< width) - 1)

/-- `(1 << n) - 1`: mask of `n` low bits (the `WordMask`/`ExpMask`/
`MantMask` idiom used throughout the C++ sources). -/
def wordMask (n : ℕ) : ℕ := (1 <<< n) - 1

/-- `SignEncoding` from `src/include/opine/core/enums.hpp`. -/
inductive SignEncoding where
  | SignMagnitude
  | TwosComplement
  | OnesComplement
deriving DecidableEq

/-- `NegativeZero` from `enums.hpp`. -/
inductive NegativeZero where
  | Exists
  | DoesNotExist
deriving DecidableEq

/-- `NanEncoding` from `enums.hpp`. -/
inductive NanEncoding where
  | ReservedExponent
  | TrapValue
  | NegativeZeroBitPattern
  | None
deriving DecidableEq

/-- `InfEncoding` from `enums.hpp`. -/
inductive InfEncoding where
  | ReservedExponent
  | IntegerExtremes
  | None
deriving DecidableEq

/-- `DenormalMode` from `enums.hpp`. -/
inductive DenormalMode where
  | Full
  | FlushToZero
  | FlushInputs
  | FlushBoth
  | None
deriving DecidableEq

/-- `AutoBias` sentinel from `enums.hpp`. -/
def AutoBias : Int := -1

/-- `Format` from `src/include/opine/core/format.hpp`: bit geometry.
All fields are non-negative C++ `int` constants, modelled as `ℕ`. -/
structure Format where
  sign_bits : ℕ
  sign_offset : ℕ
  exp_bits : ℕ
  exp_offset : ℕ
  mant_bits : ℕ
  mant_offset : ℕ
  total_bits : ℕ
deriving DecidableEq

/-- The `static_assert` constraints of `Format` plus the standard
`IEEE_Layout` field arrangement ([S][E][M], `is_standard_layout()` in
`format.hpp`), which every format instantiated by the repository uses. -/
def Format.standard (F : Format) : Prop :=
  F.sign_bits = 1 ∧ F.mant_offset = 0 ∧ F.exp_offset = F.mant_bits ∧
  F.sign_offset = F.mant_bits + F.exp_bits ∧
  F.total_bits = 1 + F.exp_bits + F.mant_bits ∧
  1 ≤ F.exp_bits ∧ 1 ≤ F.mant_bits

instance (F : Format) : Decidable F.standard := by
  unfold Format.standard; infer_instance

/-- `IEEE_Layout<ExpBits, MantBits>` from `format.hpp`. -/
def IEEE_Layout (E M : ℕ) : Format :=
  { sign_bits := 1, sign_offset := E + M, exp_bits := E, exp_offset := M,
    mant_bits := M, mant_offset := 0, total_bits := 1 + E + M }

/-- An encoding-policy bundle (the static members every encoding struct
in `src/include/opine/core/encoding.hpp` provides). -/
structure Encoding where
  sign_encoding : SignEncoding
  has_implicit_bit : Bool
  exponent_bias : Int
  negative_zero : NegativeZero
  nan_encoding : NanEncoding
  inf_encoding : InfEncoding
  denormal_mode : DenormalMode
deriving DecidableEq

/-- `ValidEncoding` concept from `encoding.hpp`: the cross-field
consistency constraints actually enforced by the code. -/
def ValidEncoding (E : Encoding) : Prop :=
  (E.sign_encoding ≠ SignEncoding.TwosComplement ∨
     E.negative_zero = NegativeZero.DoesNotExist) ∧
  (E.sign_encoding ≠ SignEncoding.TwosComplement ∨
     E.nan_encoding = NanEncoding.TrapValue ∨
     E.nan_encoding = NanEncoding.None) ∧
  (E.sign_encoding ≠ SignEncoding.TwosComplement ∨
     E.inf_encoding = InfEncoding.IntegerExtremes ∨
     E.inf_encoding = InfEncoding.None) ∧
  (E.sign_encoding ≠ SignEncoding.OnesComplement ∨
     E.negative_zero = NegativeZero.Exists) ∧
  (E.nan_encoding ≠ NanEncoding.NegativeZeroBitPattern ∨
     E.negative_zero = NegativeZero.DoesNotExist) ∧
  (E.inf_encoding ≠ InfEncoding.ReservedExponent ∨
     E.nan_encoding = NanEncoding.ReservedExponent)

instance (E : Encoding) : Decidable (ValidEncoding E) := by
  unfold ValidEncoding; infer_instance

/-- The cross-field invariants exactly as the specification words them
(§3 of the spec), written independently of `ValidEncoding`:
TwosComplement ⇒ no negative zero and NaN scheme ∈ {TrapValue, None}
and Inf scheme ∈ {IntegerExtremes, None}; OnesComplement ⇒ negative
zero exists; NegativeZeroPattern NaN ⇒ no negative zero;
IntegerExtremes Inf requires TwosComplement; ReservedExponent Inf
requires ReservedExponent NaN. -/
def SpecInvariants (E : Encoding) : Prop :=
  (E.sign_encoding = SignEncoding.TwosComplement →
     E.negative_zero = NegativeZero.DoesNotExist ∧
     (E.nan_encoding = NanEncoding.TrapValue ∨
      E.nan_encoding = NanEncoding.None) ∧
     (E.inf_encoding = InfEncoding.IntegerExtremes ∨
      E.inf_encoding = InfEncoding.None)) ∧
  (E.sign_encoding = SignEncoding.OnesComplement →
     E.negative_zero = NegativeZero.Exists) ∧
  (E.nan_encoding = NanEncoding.NegativeZeroBitPattern →
     E.negative_zero = NegativeZero.DoesNotExist) ∧
  (E.inf_encoding = InfEncoding.IntegerExtremes →
     E.sign_encoding = SignEncoding.TwosComplement) ∧
  (E.inf_encoding = InfEncoding.ReservedExponent →
     E.nan_encoding = NanEncoding.ReservedExponent)

instance (E : Encoding) : Decidable (SpecInvariants E) := by
  unfold SpecInvariants; infer_instance

/-- `SpecInvariants` with the one rule the code does not check
("IntegerExtremes Inf requires TwosComplement") removed. -/
def SpecInvariantsChecked (E : Encoding) : Prop :=
  (E.sign_encoding = SignEncoding.TwosComplement →
     E.negative_zero = NegativeZero.DoesNotExist ∧
     (E.nan_encoding = NanEncoding.TrapValue ∨
      E.nan_encoding = NanEncoding.None) ∧
     (E.inf_encoding = InfEncoding.IntegerExtremes ∨
      E.inf_encoding = InfEncoding.None)) ∧
  (E.sign_encoding = SignEncoding.OnesComplement →
     E.negative_zero = NegativeZero.Exists) ∧
  (E.nan_encoding = NanEncoding.NegativeZeroBitPattern →
     E.negative_zero = NegativeZero.DoesNotExist) ∧
  (E.inf_encoding = InfEncoding.ReservedExponent →
     E.nan_encoding = NanEncoding.ReservedExponent)

namespace encodings

/-- `encodings::IEEE754` from `encoding.hpp`. -/
def IEEE754 : Encoding :=
  { sign_encoding := SignEncoding.SignMagnitude, has_implicit_bit := true,
    exponent_bias := AutoBias, negative_zero := NegativeZero.Exists,
    nan_encoding := NanEncoding.ReservedExponent,
    inf_encoding := InfEncoding.ReservedExponent,
    denormal_mode := DenormalMode.Full }

/-- `encodings::RbjTwosComplement` from `encoding.hpp`. -/
def RbjTwosComplement : Encoding :=
  { sign_encoding := SignEncoding.TwosComplement, has_implicit_bit := true,
    exponent_bias := AutoBias, negative_zero := NegativeZero.DoesNotExist,
    nan_encoding := NanEncoding.TrapValue,
    inf_encoding := InfEncoding.IntegerExtremes,
    denormal_mode := DenormalMode.Full }

/-- `encodings::CDC6600` from `encoding.hpp`. -/
def CDC6600 : Encoding :=
  { sign_encoding := SignEncoding.OnesComplement, has_implicit_bit := false,
    exponent_bias := 1024, negative_zero := NegativeZero.Exists,
    nan_encoding := NanEncoding.None, inf_encoding := InfEncoding.None,
    denormal_mode := DenormalMode.None }

/-- `encodings::E4M3FNUZ` from `encoding.hpp`. -/
def E4M3FNUZ : Encoding :=
  { sign_encoding := SignEncoding.SignMagnitude, has_implicit_bit := true,
    exponent_bias := 8, negative_zero := NegativeZero.DoesNotExist,
    nan_encoding := NanEncoding.NegativeZeroBitPattern,
    inf_encoding := InfEncoding.None, denormal_mode := DenormalMode.Full }

/-- Modelled from the spec: the encoding of the 80-bit
explicit-leading-bit format (`opine::extFloat80`, whose alias is not
among the provided headers).  Spec §8 scenario 3 and the oracle tests
describe it as an x87-style format: sign-magnitude, explicit leading
significand bit, auto bias, IEEE-style reserved-exponent NaN and
infinity, gradual underflow. -/
def ExtFloat80 : Encoding :=
  { sign_encoding := SignEncoding.SignMagnitude, has_implicit_bit := false,
    exponent_bias := AutoBias, negative_zero := NegativeZero.Exists,
    nan_encoding := NanEncoding.ReservedExponent,
    inf_encoding := InfEncoding.ReservedExponent,
    denormal_mode := DenormalMode.Full }

end encodings

/-- `Float::exponent_bias` from `src/include/opine/core/float.hpp`:
the explicit bias, or (for `AutoBias`) `2^(E-1)` for two's complement
and `2^(E-1) - 1` otherwise. -/
def exponentBias (F : Format) (E : Encoding) : Int :=
  if E.exponent_bias ≠ AutoBias then E.exponent_bias
  else if E.sign_encoding = SignEncoding.TwosComplement then
    ((1 <<< (F.exp_bits - 1) : ℕ) : Int)
  else ((1 <<< (F.exp_bits - 1) : ℕ) : Int) - 1

/-- The value category of an `MpfrFloat` as the code observes it:
NaN, signed infinity, signed zero, or a finite non-zero dyadic
`(-1)^negative × mantissa × 2^exp2`.  At the 256-bit working precision
every value the decoders produce is exact, so this is a faithful model
of the `mpfr_t` results. -/
inductive MVal where
  | nan : MVal
  | inf (negative : Bool) : MVal
  | zero (negative : Bool) : MVal
  | fin (negative : Bool) (mantissa : ℕ) (exp2 : Int) : MVal
deriving DecidableEq

/-- `mpfr_set_z_2exp(Result, Z, Exponent)` followed by an optional
`mpfr_neg` (the tail of both decoders' phase 5): a zero integer gives
`+0`, which negation turns into `-0`. -/
def setZ2exp (negative : Bool) (mantissa : ℕ) (exp2 : Int) : MVal :=
  if mantissa = 0 then MVal.zero negative else MVal.fin negative mantissa exp2

/-- The initial word-masking step of both decoders: when the storage
word is wider than the format, mask `bits` to `total_bits`. -/
def maskBits (F : Format) (W bits : ℕ) : ℕ :=
  if F.total_bits < W then bits &&& wordMask F.total_bits else bits

/-- The `TrapValue` NaN pattern: only the top bit of the word set. -/
def trapPattern (F : Format) : ℕ := 1 <<< (F.total_bits - 1)

/-- `IntegerExtremes` +Inf pattern: the maximum positive signed
integer `(1 << (total_bits - 1)) - 1`. -/
def posInfPattern (F : Format) : ℕ := (1 <<< (F.total_bits - 1)) - 1

/-- `IntegerExtremes` -Inf pattern: the two's-complement negation of
`posInfPattern`, computed as the code does in both its
narrower-than-word and full-word branches. -/
def negInfPattern (F : Format) (W : ℕ) : ℕ :=
  if F.total_bits < W then
    (wordMask F.total_bits - posInfPattern F + 1) &&& wordMask F.total_bits
  else (wordMask W - posInfPattern F + 1) % 2 ^ W

/-- The explicit leading significand bit (`JBit`): bit `mant_bits - 1`
of the mantissa field. -/
def jBit (F : Format) : ℕ := 1 <<< (F.mant_bits - 1)

/-- Phase 2 of both decoders (identical in the two sources): determine
the sign and extract the magnitude exponent/mantissa fields according
to the sign scheme.  Two's complement negates the whole word before
re-extracting; ones' complement inverts the extracted fields. -/
def magnitudeFields (F : Format) (E : Encoding) (W bits : ℕ) :
    Bool × ℕ × ℕ :=
  let rawSign := extractField bits F.sign_offset F.sign_bits
  match E.sign_encoding with
  | SignEncoding.SignMagnitude =>
      (rawSign ≠ 0,
       extractField bits F.exp_offset F.exp_bits,
       extractField bits F.mant_offset F.mant_bits)
  | SignEncoding.TwosComplement =>
      if rawSign ≠ 0 then
        let positive :=
          if F.total_bits < W then
            (wordMask F.total_bits - bits + 1) &&& wordMask F.total_bits
          else (wordMask W - bits + 1) % 2 ^ W
        (true,
         extractField positive F.exp_offset F.exp_bits,
         extractField positive F.mant_offset F.mant_bits)
      else
        (false,
         extractField bits F.exp_offset F.exp_bits,
         extractField bits F.mant_offset F.mant_bits)
  | SignEncoding.OnesComplement =>
      if rawSign ≠ 0 then
        (true,
         extractField bits F.exp_offset F.exp_bits ^^^ wordMask F.exp_bits,
         extractField bits F.mant_offset F.mant_bits ^^^ wordMask F.mant_bits)
      else
        (false,
         extractField bits F.exp_offset F.exp_bits,
         extractField bits F.mant_offset F.mant_bits)

/-- Phases 4 and 5 of both decoders (identical in the two sources):
zero detection, then the finite-value formula.  Implicit-bit formats
prepend the hidden bit for normal values; explicit-bit formats use the
stored mantissa unchanged, with the `exp = 0` exponent rule `1 - bias -
(mant_bits - 1)`. -/
def finishDecode (F : Format) (E : Encoding) (neg : Bool)
    (magExp magMant : ℕ) : MVal :=
  if magExp = 0 ∧ magMant = 0 then
    if E.negative_zero = NegativeZero.Exists then MVal.zero neg
    else MVal.zero false
  else
    let bias := exponentBias F E
    if E.has_implicit_bit then
      if magExp = 0 then
        setZ2exp neg magMant (1 - bias - (F.mant_bits : Int))
      else
        setZ2exp neg ((1 <<< F.mant_bits) ||| magMant)
          ((magExp : Int) - bias - (F.mant_bits : Int))
    else
      if magExp = 0 then
        setZ2exp neg magMant (1 - bias - ((F.mant_bits : Int) - 1))
      else
        setZ2exp neg magMant
          ((magExp : Int) - bias - ((F.mant_bits : Int) - 1))

namespace Harness

/-- `decodeToMpfr` from `src/tests/harness/impl_mpfr.hpp` (the MPFR
adapter): phase 1 whole-pattern specials (trap NaN, integer-extreme
infinities, negative-zero-pattern NaN), phase 2 sign and magnitude,
phase 3 reserved-exponent specials — for explicit-bit formats the
infinity test is `exp = max ∧ fraction = 0` (no leading-bit test) —
phases 4/5 zero and finite decode. -/
def decodeToMpfr (F : Format) (E : Encoding) (W bits0 : ℕ) : MVal :=
  let bits := maskBits F W bits0
  if E.nan_encoding = NanEncoding.TrapValue ∧ bits = trapPattern F then
    MVal.nan
  else if E.inf_encoding = InfEncoding.IntegerExtremes ∧
      bits = posInfPattern F then MVal.inf false
  else if E.inf_encoding = InfEncoding.IntegerExtremes ∧
      bits = negInfPattern F W then MVal.inf true
  else if E.nan_encoding = NanEncoding.NegativeZeroBitPattern ∧
      extractField bits F.sign_offset F.sign_bits ≠ 0 ∧
      extractField bits F.exp_offset F.exp_bits = 0 ∧
      extractField bits F.mant_offset F.mant_bits = 0 then MVal.nan
  else
    let mf := magnitudeFields F E W bits
    let neg := mf.1
    let magExp := mf.2.1
    let magMant := mf.2.2
    let expMax := wordMask F.exp_bits
    if E.inf_encoding = InfEncoding.ReservedExponent ∧
        (if E.has_implicit_bit then magExp = expMax ∧ magMant = 0
         else magExp = expMax ∧ magMant &&& (jBit F - 1) = 0) then
      MVal.inf neg
    else if E.nan_encoding = NanEncoding.ReservedExponent ∧
        magExp = expMax ∧ magMant ≠ 0 then MVal.nan
    else finishDecode F E neg magExp magMant

end Harness

namespace Oracle

/-- `decodeToMpfr` from `src/tests/oracle/mpfr_exact.hpp` (the oracle):
identical to the harness decoder except in phase 3 for explicit-bit
formats, where infinity additionally requires the leading bit set
(`J = 1 ∧ fraction = 0`) and the NaN test excludes exactly that
infinity shape. -/
def decodeToMpfr (F : Format) (E : Encoding) (W bits0 : ℕ) : MVal :=
  let bits := maskBits F W bits0
  if E.nan_encoding = NanEncoding.TrapValue ∧ bits = trapPattern F then
    MVal.nan
  else if E.inf_encoding = InfEncoding.IntegerExtremes ∧
      bits = posInfPattern F then MVal.inf false
  else if E.inf_encoding = InfEncoding.IntegerExtremes ∧
      bits = negInfPattern F W then MVal.inf true
  else if E.nan_encoding = NanEncoding.NegativeZeroBitPattern ∧
      extractField bits F.sign_offset F.sign_bits ≠ 0 ∧
      extractField bits F.exp_offset F.exp_bits = 0 ∧
      extractField bits F.mant_offset F.mant_bits = 0 then MVal.nan
  else
    let mf := magnitudeFields F E W bits
    let neg := mf.1
    let magExp := mf.2.1
    let magMant := mf.2.2
    let expMax := wordMask F.exp_bits
    if E.inf_encoding = InfEncoding.ReservedExponent ∧
        (if E.has_implicit_bit then magExp = expMax ∧ magMant = 0
         else magExp = expMax ∧ magMant &&& jBit F ≠ 0 ∧
           magMant &&& (jBit F - 1) = 0) then
      MVal.inf neg
    else if E.nan_encoding = NanEncoding.ReservedExponent ∧
        (if E.has_implicit_bit then magExp = expMax ∧ magMant ≠ 0
         else magExp = expMax ∧
           ¬(magMant &&& jBit F ≠ 0 ∧ magMant &&& (jBit F - 1) = 0) ∧
           magMant ≠ 0) then MVal.nan
    else finishDecode F E neg magExp magMant

end Oracle

/-- Round-to-nearest-integer, ties to even, of the non-negative value
`m × 2 ^ k`: the effect of `mpfr_mul_2si` + `mpfr_rint(MPFR_RNDN)` +
`mpfr_get_z` on `|value| = m × 2 ^ e` scaled by `2 ^ (k - e)`, computed
exactly (the working precision of 256 bits makes these steps exact for
every value the decoders produce). -/
def rnint (m : ℕ) (k : Int) : ℕ :=
  if 0 ≤ k then m <<< k.toNat
  else
    let d := 1 <<< (-k).toNat
    let q := m / d
    let r := m % d
    if d < r * 2 ∨ (r * 2 = d ∧ q % 2 = 1) then q + 1 else q

/-- `detail::mpzToBits<BitsType>`: exporting a non-negative `mpz` into
a `W`-bit word truncates it modulo `2 ^ W`. -/
def mpzToBits (W z : ℕ) : ℕ := z % 2 ^ W

/-- The canonical infinity pattern emitted by `mpfrRoundToFormat` for
`ReservedExponent` infinities (built identically at its two emission
sites): all-ones exponent, and for explicit-bit formats the leading
mantissa bit, with the sign bit when negative. -/
def infBitsPattern (F : Format) (E : Encoding) (W : ℕ) (neg : Bool) : ℕ :=
  ((if E.has_implicit_bit then wordMask F.exp_bits <<< F.exp_offset
    else wordMask F.exp_bits <<< F.exp_offset ||| jBit F) |||
   (if neg then 1 <<< F.sign_offset else 0)) % 2 ^ W

/-- The zero pattern emitted by `mpfrRoundToFormat` (shared shape of
its three zero-return sites): sign bit only when the value is negative
and the encoding has a negative zero. -/
def zeroBitsPattern (F : Format) (E : Encoding) (W : ℕ) (neg : Bool) : ℕ :=
  if neg ∧ E.negative_zero = NegativeZero.Exists then
    (1 <<< F.sign_offset) % 2 ^ W
  else 0

/-- The final field-packing of `mpfrRoundToFormat` (its tail): sign
bit, stored exponent and stored mantissa ORed at their offsets. -/
def packResult (F : Format) (W : ℕ) (neg : Bool) (se sm : ℕ) : ℕ :=
  ((if neg then 1 <<< F.sign_offset else 0) |||
   se <<< F.exp_offset ||| sm <<< F.mant_offset) % 2 ^ W

namespace Harness

/-- `mpfrRoundToFormat` from `src/tests/harness/impl_mpfr.hpp` (the
copy in `mpfr_exact.hpp` is semantically identical): round an exact
value to the format's bits with round-to-nearest-ties-to-even.
NaN maps to the canonical quiet-NaN pattern for `ReservedExponent`
NaNs and to 0 otherwise; infinities map to the canonical infinity
pattern for `ReservedExponent` infinities and to 0 otherwise; finite
values are scaled so the significand becomes an integer, rounded with
`mpfr_rint`, and repacked, overflowing to infinity and underflowing to
zero.  `mpfr_get_exp` of a non-zero `m × 2 ^ e` is `log2 m + e + 1`,
so `IeeeExp` is `log2 m + e`. -/
def mpfrRoundToFormat (F : Format) (E : Encoding) (W : ℕ) (v : MVal) : ℕ :=
  let M := F.mant_bits
  let bias := exponentBias F E
  let expAllOnes := wordMask F.exp_bits
  let mantMask := wordMask M
  let maxBiasedExp : Int :=
    if E.nan_encoding = NanEncoding.ReservedExponent ∨
       E.inf_encoding = InfEncoding.ReservedExponent then
      ((1 <<< F.exp_bits : ℕ) : Int) - 2
    else ((1 <<< F.exp_bits : ℕ) : Int) - 1
  let rmb : ℕ := if E.has_implicit_bit then M else M - 1
  let eminIeee : Int := 1 - bias
  match v with
  | MVal.nan =>
      if E.nan_encoding = NanEncoding.ReservedExponent then
        if E.has_implicit_bit then
          (expAllOnes <<< F.exp_offset ||| 1 <<< (M - 1)) % 2 ^ W
        else
          (expAllOnes <<< F.exp_offset ||| jBit F ||| 1 <<< (M - 2)) % 2 ^ W
      else 0
  | MVal.inf neg =>
      if E.inf_encoding = InfEncoding.ReservedExponent then
        infBitsPattern F E W neg
      else 0
  | MVal.zero neg => zeroBitsPattern F E W neg
  | MVal.fin neg m exp2 =>
      let ieeeExp : Int := (Nat.log2 m : Int) + exp2
      if eminIeee ≤ ieeeExp then
        -- normal regime: scale by 2^(rmb - ieeeExp), round to integer
        let intSig0 := mpzToBits W (rnint m (exp2 + ((rmb : Int) - ieeeExp)))
        let carried : Int × ℕ :=
          if 1 <<< (rmb + 1) ≤ intSig0 then (ieeeExp + 1, intSig0 >>> 1)
          else (ieeeExp, intSig0)
        let biasedExp : Int := carried.1 + bias
        if maxBiasedExp < biasedExp then
          if E.inf_encoding = InfEncoding.ReservedExponent then
            infBitsPattern F E W neg
          else 0
        else packResult F W neg biasedExp.toNat (carried.2 &&& mantMask)
      else
        -- subnormal regime: scale by 2^(bias - 1 + rmb), round to integer
        let mant := mpzToBits W (rnint m (exp2 + (bias - 1 + (rmb : Int))))
        if E.has_implicit_bit then
          if 1 <<< M ≤ mant then packResult F W neg 1 0
          else if mant = 0 then zeroBitsPattern F E W neg
          else packResult F W neg 0 mant
        else
          if 1 <<< (M - 1) ≤ mant then packResult F W neg 1 (jBit F)
          else if mant = 0 then zeroBitsPattern F E W neg
          else packResult F W neg 0 mant

end Harness

/-- `TestOutput` from `src/tests/harness/ops.hpp`: result bits plus a
status-flag byte. -/
structure TestOutput where
  Bits : ℕ
  Flags : ℕ
deriving DecidableEq

/-- `NanAwareBitExact<FloatType>::isNan` from
`src/tests/harness/test_harness.hpp`: the comparator's scheme-specific
NaN bit test (note it reads the mantissa field as the low `mant_bits`
bits of the word, and for `ReservedExponent` requires only
`exp = max ∧ mant ≠ 0`). -/
def NanAwareIsNan (F : Format) (E : Encoding) (bits : ℕ) : Bool :=
  match E.nan_encoding with
  | NanEncoding.ReservedExponent =>
      let expMax := wordMask F.exp_bits
      let exp := (bits >>> F.exp_offset) &&& expMax
      let mant := bits &&& ((1 <<< F.mant_bits) - 1)
      decide (exp = expMax ∧ mant ≠ 0)
  | NanEncoding.TrapValue => decide (bits = 1 <<< (F.total_bits - 1))
  | NanEncoding.NegativeZeroBitPattern =>
      decide (bits = 1 <<< (F.total_bits - 1))
  | NanEncoding.None => false

/-- `NanAwareBitExact<FloatType>::operator()` from
`test_harness.hpp`: two NaN outputs always match; otherwise compare
bits exactly. -/
def NanAwareBitExact (F : Format) (E : Encoding) (A B : TestOutput) : Bool :=
  if NanAwareIsNan F E A.Bits ∧ NanAwareIsNan F E B.Bits then true
  else decide (A.Bits = B.Bits)

/-- `TestResult` from `test_harness.hpp`. -/
structure TestResult where
  Total : ℕ
  Passed : ℕ
  Failed : ℕ
deriving DecidableEq

/-- `Failure<BitsType>` from `test_harness.hpp`. -/
structure Failure where
  InputA : ℕ
  InputB : ℕ
  OutputA : TestOutput
  OutputB : TestOutput
deriving DecidableEq

/-- `MaxReportedFailures` from `test_harness.hpp`. -/
def MaxReportedFailures : ℕ := 10

/-- The loop body of `testAgainst` (the per-pair callback passed to
`Strategy` in `test_harness.hpp`): run both opaque implementations on
the pair, bump the counters, and record the mismatch while fewer than
`MaxReportedFailures` failures have been kept. -/
def testStep (A B : ℕ → ℕ → TestOutput) (Cmp : TestOutput → TestOutput → Bool)
    (acc : TestResult × List Failure) (p : ℕ × ℕ) :
    TestResult × List Failure :=
  let OA := A p.1 p.2
  let OB := B p.1 p.2
  if Cmp OA OB then
    ({ acc.1 with Total := acc.1.Total + 1, Passed := acc.1.Passed + 1 },
     acc.2)
  else
    ({ acc.1 with Total := acc.1.Total + 1, Failed := acc.1.Failed + 1 },
     if acc.2.length < MaxReportedFailures then
       acc.2 ++ [⟨p.1, p.2, OA, OB⟩]
     else acc.2)

/-- `testAgainst` from `test_harness.hpp`, with the iteration strategy
represented by the list of input pairs it yields: run both opaque
implementations on every pair, count passes and failures, and record
the first `MaxReportedFailures` mismatching inputs/outputs. -/
def testAgainst (pairs : List (ℕ × ℕ)) (A B : ℕ → ℕ → TestOutput)
    (Cmp : TestOutput → TestOutput → Bool) : TestResult × List Failure :=
  pairs.foldl (testStep A B Cmp) (⟨0, 0, 0⟩, [])

/-- Conversion of a (possibly negative) C++ `int` constant to a `W`-bit
unsigned word: wrap modulo `2 ^ W`. -/
def bitsOfInt (W : ℕ) (x : Int) : ℕ := (x % ((2 ^ W : ℕ) : Int)).toNat

/-- `W`-bit wrapping decrement, for the single `... - 1` entry of the
edge-case list (C++ unsigned subtraction wraps). -/
def decWrap (W x : ℕ) : ℕ := (x % 2 ^ W + (2 ^ W - 1)) % 2 ^ W

/-- `interestingValues<FloatType>` from `test_harness.hpp`: the
edge-case generator.  Each array element has type `BitsType`, so every
entry is reduced modulo `2 ^ W`; the entries mirror the two constexpr
arrays (22 values for implicit-bit formats, 38 — including unnormals,
pseudo-denormals, pseudo-infinities and pseudo-NaNs — for explicit-bit
formats). -/
def interestingValues (F : Format) (E : Encoding) (W : ℕ) : List ℕ :=
  let M := F.mant_bits
  let bias := exponentBias F E
  let signBit := 1 <<< F.sign_offset
  let expMax := wordMask F.exp_bits
  let mantMask := wordMask M
  let eo := F.exp_offset
  (if E.has_implicit_bit then
    [0,
     signBit,
     expMax <<< eo,
     signBit ||| expMax <<< eo,
     expMax <<< eo ||| 1 <<< (M - 1),
     expMax <<< eo ||| 1,
     expMax <<< eo ||| (1 <<< (M - 1) - 1),
     signBit ||| expMax <<< eo ||| 1 <<< (M - 1),
     1,
     signBit ||| 1,
     mantMask,
     1 <<< M,
     (expMax - 1) <<< eo ||| mantMask,
     signBit ||| (expMax - 1) <<< eo ||| mantMask,
     bitsOfInt W bias <<< eo,
     signBit ||| bitsOfInt W bias <<< eo,
     bitsOfInt W (bias + 1) <<< eo,
     bitsOfInt W (bias - 1) <<< eo,
     (1 <<< M) + 1,
     (bitsOfInt W bias <<< eo) + 1,
     decWrap W (bitsOfInt W bias <<< eo),
     bitsOfInt W (bias - M) <<< eo]
  else
    let jb := jBit F
    let mantMaskNoJ := mantMask &&& (2 ^ W - 1 - jb % 2 ^ W)
    [0,
     signBit,
     expMax <<< eo ||| jb,
     signBit ||| expMax <<< eo ||| jb,
     expMax <<< eo ||| jb ||| 1 <<< (M - 2),
     expMax <<< eo ||| jb ||| 1,
     expMax <<< eo ||| mantMask,
     signBit ||| expMax <<< eo ||| jb ||| 1 <<< (M - 2),
     1,
     signBit ||| 1,
     mantMaskNoJ,
     1 <<< eo ||| jb,
     (expMax - 1) <<< eo ||| mantMask,
     signBit ||| (expMax - 1) <<< eo ||| mantMask,
     bitsOfInt W bias <<< eo ||| jb,
     signBit ||| bitsOfInt W bias <<< eo ||| jb,
     bitsOfInt W (bias + 1) <<< eo ||| jb,
     bitsOfInt W (bias - 1) <<< eo ||| jb,
     1 <<< eo ||| jb ||| 1,
     bitsOfInt W bias <<< eo ||| jb ||| 1,
     bitsOfInt W bias <<< eo ||| (jb - 1),
     bitsOfInt W (bias - (M - 1)) <<< eo ||| jb,
     1 <<< eo,
     bitsOfInt W bias <<< eo,
     signBit ||| bitsOfInt W bias <<< eo,
     1 <<< eo ||| mantMaskNoJ,
     bitsOfInt W bias <<< eo ||| jb >>> 1,
     2 <<< eo ||| mantMaskNoJ,
     (expMax - 1) <<< eo ||| mantMaskNoJ,
     jb,
     signBit ||| jb,
     jb ||| 1,
     jb ||| mantMaskNoJ,
     expMax <<< eo,
     signBit ||| expMax <<< eo,
     expMax <<< eo ||| 1 <<< (M - 2),
     expMax <<< eo ||| 1,
     expMax <<< eo ||| mantMaskNoJ]).map (· % 2 ^ W)

/-- `RandomPairs<BitsType, TotalBits>` from `test_harness.hpp`: seed
and pair count of the uniformly-random iteration strategy. -/
structure RandomPairs where
  Seed : ℕ
  Count : ℕ
deriving DecidableEq

/-- One `Gen()` call of `RandomPairs`: OR together 64-bit chunks drawn
from the PRNG stream at consecutive indices starting at `base`
(little-endian chunk order, each chunk wrapped into the `W`-bit word),
then mask to `total_bits` when the word is wider.  `rng` abstracts the
seeded `std::mt19937_64` output stream, whose values are `uint64`. -/
def genRandomValue (F : Format) (W : ℕ) (rng : ℕ → ℕ) (base : ℕ) : ℕ :=
  let T := F.total_bits
  let chunks := (T + 63) / 64
  let val :=
    ((List.range chunks).foldl
      (fun v i => v ||| (rng (base + i) % 2 ^ 64) <<< (i * 64)) 0) % 2 ^ W
  if T < W then val &&& wordMask T else val

/-- `RandomPairs::operator()`: `Count` callbacks, each consuming two
freshly generated values from the stream in order. -/
def randomPairsRun (F : Format) (W : ℕ) (rngOf : ℕ → ℕ → ℕ)
    (S : RandomPairs) : List (ℕ × ℕ) :=
  let chunks := (F.total_bits + 63) / 64
  (List.range S.Count).map fun i =>
    (genRandomValue F W (rngOf S.Seed) (2 * i * chunks),
     genRandomValue F W (rngOf S.Seed) ((2 * i + 1) * chunks))

/-- Packing of disjoint sign/exponent/mantissa fields at their
offsets: the canonical bit pattern with field values `s`, `e`, `m`. -/
def packFields (F : Format) (s e m : ℕ) : ℕ :=
  s <<< F.sign_offset ||| e <<< F.exp_offset ||| m <<< F.mant_offset

/-- The IEEE 754 binary32 layout (`fp32_layout` from `format.hpp`). -/
def fp32Layout : Format := IEEE_Layout 8 23

/-- The binary16 layout (`fp16_layout` from `format.hpp`). -/
def fp16Layout : Format := IEEE_Layout 5 10

/-- The 80-bit x87 extended layout (1 sign, 15 exponent, 64 mantissa
bits with explicit leading bit). -/
def ext80Layout : Format := IEEE_Layout 15 64

/-! ## Bit-level toolkit -/

theorem shiftLeft_or_eq_add (a : ℕ) :
    ∀ n b, b < 2 ^ n → a * 2 ^ n ||| b = a * 2 ^ n + b := by
  intro n
  induction n with
  | zero =>
    intro b hb
    interval_cases b
    simp
  | succ n ih =>
    intro b hb
    have hb2 : b / 2 < 2 ^ n := by
      have h2 : b < 2 * 2 ^ n := by rw [pow_succ] at hb; omega
      omega
    have h1 : a * 2 ^ (n + 1) = Nat.bit false (a * 2 ^ n) := by
      simp [Nat.bit, pow_succ]; ring
    have h2 : b = Nat.bit (b % 2 = 1) (b / 2) := by
      rcases Nat.mod_two_eq_zero_or_one b with h | h <;> simp [Nat.bit, h] <;>
        omega
    rw [h1, h2, Nat.lor_bit]
    have h3 := ih (b / 2) hb2
    rcases Nat.mod_two_eq_zero_or_one b with h | h <;>
      simp only [Nat.bit, h, h3, pow_succ] <;> simp <;> ring_nf <;> omega

theorem div_pack {K a d : ℕ} (hd : 0 < d) (ha : a < d) :
    (K * d + a) / d = K := by
  rw [Nat.mul_comm, Nat.mul_add_div hd, Nat.div_eq_of_lt ha]
  omega

theorem mod_pack {K a d : ℕ} (ha : a < d) : (K * d + a) % d = a := by
  rw [Nat.add_comm, Nat.add_mul_mod_self_right, Nat.mod_eq_of_lt ha]

theorem wordMask_eq (n : ℕ) : wordMask n = 2 ^ n - 1 := by
  simp [wordMask, Nat.shiftLeft_eq]

theorem one_shiftLeft (n : ℕ) : 1 <<< n = 2 ^ n := by
  simp [Nat.shiftLeft_eq]

theorem extractField_eq (b off w : ℕ) (hw : w ≠ 0) :
    extractField b off w = b / 2 ^ off % 2 ^ w := by
  simp [extractField, hw, Nat.shiftRight_eq_div_pow, Nat.shiftLeft_eq,
    Nat.and_pow_two_sub_one_eq_mod]

theorem split_base_inj {A B a b d : ℕ} (ha : a < d) (hb : b < d)
    (h : A * d + a = B * d + b) : A = B ∧ a = b := by
  have h1 : (A * d + a) % d = a := mod_pack ha
  have h2 : (B * d + b) % d = b := mod_pack hb
  have hab : a = b := by rw [← h1, ← h2, h]
  subst hab
  have hd : 0 < d := by omega
  constructor
  · exact Nat.eq_of_mul_eq_mul_right hd (by omega)
  · rfl

theorem packFields_eq (F : Format) (hstd : F.standard) {s e m : ℕ}
    (hs : s ≤ 1) (he : e < 2 ^ F.exp_bits) (hm : m < 2 ^ F.mant_bits) :
    packFields F s e m =
      (s * 2 ^ F.exp_bits + e) * 2 ^ F.mant_bits + m := by
  obtain ⟨h1, h2, h3, h4, h5, h6, h7⟩ := hstd
  unfold packFields
  rw [h2, h3, h4, Nat.shiftLeft_eq, Nat.shiftLeft_eq, Nat.shiftLeft_eq,
    pow_zero, Nat.mul_one]
  have hb : e * 2 ^ F.mant_bits < 2 ^ (F.mant_bits + F.exp_bits) := by
    rw [pow_add]
    calc e * 2 ^ F.mant_bits < 2 ^ F.exp_bits * 2 ^ F.mant_bits :=
          (Nat.mul_lt_mul_right (Nat.pos_pow_of_pos _ (by omega))).mpr he
      _ = 2 ^ F.mant_bits * 2 ^ F.exp_bits := by ring
  rw [shiftLeft_or_eq_add s (F.mant_bits + F.exp_bits) (e * 2 ^ F.mant_bits)
    hb]
  have hstep : s * 2 ^ (F.mant_bits + F.exp_bits) + e * 2 ^ F.mant_bits =
      (s * 2 ^ F.exp_bits + e) * 2 ^ F.mant_bits := by
    rw [pow_add]; ring
  rw [hstep, shiftLeft_or_eq_add _ _ _ hm]

theorem packFields_lt (F : Format) (hstd : F.standard) {s e m : ℕ}
    (hs : s ≤ 1) (he : e < 2 ^ F.exp_bits) (hm : m < 2 ^ F.mant_bits) :
    packFields F s e m < 2 ^ F.total_bits := by
  have h5 := hstd.2.2.2.2.1
  rw [packFields_eq F hstd hs he hm, h5]
  have hse : s * 2 ^ F.exp_bits + e + 1 ≤ 2 ^ (1 + F.exp_bits) := by
    have hq : 2 ^ (1 + F.exp_bits) = 2 * 2 ^ F.exp_bits := by
      rw [pow_add]; ring
    rw [hq]
    nlinarith
  calc (s * 2 ^ F.exp_bits + e) * 2 ^ F.mant_bits + m
      < (s * 2 ^ F.exp_bits + e) * 2 ^ F.mant_bits + 2 ^ F.mant_bits := by
        omega
    _ = (s * 2 ^ F.exp_bits + e + 1) * 2 ^ F.mant_bits := by ring
    _ ≤ 2 ^ (1 + F.exp_bits) * 2 ^ F.mant_bits :=
        Nat.mul_le_mul_right _ hse
    _ = 2 ^ (1 + F.exp_bits + F.mant_bits) := by rw [← pow_add]

theorem extract_pack_sign (F : Format) (hstd : F.standard) {s e m : ℕ}
    (hs : s ≤ 1) (he : e < 2 ^ F.exp_bits) (hm : m < 2 ^ F.mant_bits) :
    extractField (packFields F s e m) F.sign_offset F.sign_bits = s := by
  obtain ⟨h1, h2, h3, h4, h5, h6, h7⟩ := hstd
  rw [packFields_eq F ⟨h1, h2, h3, h4, h5, h6, h7⟩ hs he hm,
    extractField_eq _ _ _ (by omega), h4, h1]
  have hsplit : (s * 2 ^ F.exp_bits + e) * 2 ^ F.mant_bits + m =
      s * 2 ^ (F.mant_bits + F.exp_bits) + (e * 2 ^ F.mant_bits + m) := by
    rw [pow_add]; ring
  have hrem : e * 2 ^ F.mant_bits + m < 2 ^ (F.mant_bits + F.exp_bits) := by
    rw [pow_add]
    calc e * 2 ^ F.mant_bits + m
        < e * 2 ^ F.mant_bits + 2 ^ F.mant_bits := by omega
      _ = (e + 1) * 2 ^ F.mant_bits := by ring
      _ ≤ 2 ^ F.exp_bits * 2 ^ F.mant_bits :=
          Nat.mul_le_mul_right _ (by omega)
      _ = 2 ^ F.mant_bits * 2 ^ F.exp_bits := by ring
  rw [hsplit, div_pack (Nat.pos_pow_of_pos _ (by omega)) hrem, pow_one]
  omega

theorem extract_pack_exp (F : Format) (hstd : F.standard) {s e m : ℕ}
    (hs : s ≤ 1) (he : e < 2 ^ F.exp_bits) (hm : m < 2 ^ F.mant_bits) :
    extractField (packFields F s e m) F.exp_offset F.exp_bits = e := by
  obtain ⟨h1, h2, h3, h4, h5, h6, h7⟩ := hstd
  rw [packFields_eq F ⟨h1, h2, h3, h4, h5, h6, h7⟩ hs he hm,
    extractField_eq _ _ _ (by omega), h3,
    div_pack (Nat.pos_pow_of_pos _ (by omega)) hm, mod_pack he]

theorem extract_pack_mant (F : Format) (hstd : F.standard) {s e m : ℕ}
    (hs : s ≤ 1) (he : e < 2 ^ F.exp_bits) (hm : m < 2 ^ F.mant_bits) :
    extractField (packFields F s e m) F.mant_offset F.mant_bits = m := by
  obtain ⟨h1, h2, h3, h4, h5, h6, h7⟩ := hstd
  rw [packFields_eq F ⟨h1, h2, h3, h4, h5, h6, h7⟩ hs he hm,
    extractField_eq _ _ _ (by omega), h2, pow_zero, Nat.div_one,
    mod_pack hm]

theorem packFields_inj (F : Format) (hstd : F.standard)
    {s e m s2 e2 m2 : ℕ} (hs : s ≤ 1) (he : e < 2 ^ F.exp_bits)
    (hm : m < 2 ^ F.mant_bits) (hs2 : s2 ≤ 1) (he2 : e2 < 2 ^ F.exp_bits)
    (hm2 : m2 < 2 ^ F.mant_bits)
    (h : packFields F s e m = packFields F s2 e2 m2) :
    s = s2 ∧ e = e2 ∧ m = m2 := by
  rw [packFields_eq F hstd hs he hm, packFields_eq F hstd hs2 he2 hm2] at h
  obtain ⟨hA, hm'⟩ := split_base_inj hm hm2 h
  obtain ⟨hs', he'⟩ := split_base_inj he he2 hA
  exact ⟨hs', he', hm'⟩

theorem maskBits_of_lt (F : Format) {W x : ℕ}
    (hx : x < 2 ^ F.total_bits) : maskBits F W x = x := by
  unfold maskBits
  split
  · rw [wordMask_eq, Nat.and_pow_two_sub_one_eq_mod, Nat.mod_eq_of_lt hx]
  · rfl

theorem rnint_exact (m : ℕ) : rnint m 0 = m := by
  simp [rnint]

theorem log2_eq_of {m k : ℕ} (h1 : 2 ^ k ≤ m) (h2 : m < 2 ^ (k + 1)) :
    Nat.log2 m = k := by
  have hm : m ≠ 0 := by
    have : 0 < 2 ^ k := Nat.pos_pow_of_pos _ (by omega)
    omega
  have hlt : Nat.log2 m < k + 1 := (Nat.log2_lt hm).mpr h2
  have hge : ¬ Nat.log2 m < k := by
    intro hcon
    have := (Nat.log2_lt hm).mp hcon
    omega
  omega

theorem packResult_eq (F : Format) (hstd : F.standard) {W : ℕ}
    (hW : F.total_bits ≤ W) (neg : Bool) {se sm : ℕ}
    (hse : se < 2 ^ F.exp_bits) (hsm : sm < 2 ^ F.mant_bits) :
    packResult F W neg se sm =
      packFields F (if neg then 1 else 0) se sm := by
  have hb : (if neg then 1 else 0) ≤ 1 := by cases neg <;> simp
  have hlt := packFields_lt F hstd hb hse hsm
  have hT : 2 ^ F.total_bits ≤ 2 ^ W := Nat.pow_le_pow_right (by omega) hW
  unfold packResult packFields
  have hsign : (if neg then 1 <<< F.sign_offset else 0) =
      (if neg then 1 else 0) <<< F.sign_offset := by
    cases neg <;> simp [Nat.zero_shiftLeft]
  rw [hsign, Nat.mod_eq_of_lt]
  unfold packFields at hlt
  omega

theorem mpzToBits_of_lt {W z : ℕ} (h : z < 2 ^ W) : mpzToBits W z = z :=
  Nat.mod_eq_of_lt h

/-- Normal-regime rounding of a value that is already exactly
representable with significand `mant ∈ [2^rmb, 2^(rmb+1))` at biased
exponent `eF`: the scaled-and-rounded integer is `mant` itself and no
carry or overflow occurs. -/
theorem round_fin_normal (F : Format) (E : Encoding) {W : ℕ}
    (hstd : F.standard) (hW : F.total_bits ≤ W) (neg : Bool)
    {mant eF rmb : ℕ}
    (hrmb : rmb = if E.has_implicit_bit then F.mant_bits
      else F.mant_bits - 1)
    (hlo : 2 ^ rmb ≤ mant) (hhi : mant < 2 ^ (rmb + 1)) (he1 : 1 ≤ eF)
    (hcap : (eF : Int) ≤
      (if E.nan_encoding = NanEncoding.ReservedExponent ∨
          E.inf_encoding = InfEncoding.ReservedExponent then
        ((2 ^ F.exp_bits : ℕ) : Int) - 2
       else ((2 ^ F.exp_bits : ℕ) : Int) - 1)) :
    Harness.mpfrRoundToFormat F E W
        (MVal.fin neg mant ((eF : Int) - exponentBias F E - (rmb : Int))) =
      packResult F W neg eF (mant &&& wordMask F.mant_bits) := by
  obtain ⟨h1, h2, h3, h4, h5, h6, h7⟩ := hstd
  have hlog : Nat.log2 mant = rmb := log2_eq_of hlo hhi
  have hrmbM : rmb ≤ F.mant_bits := by
    rw [hrmb]; split <;> omega
  have hmlt : mant < 2 ^ W := by
    calc mant < 2 ^ (rmb + 1) := hhi
      _ ≤ 2 ^ W := Nat.pow_le_pow_right (by omega) (by omega)
  simp only [Harness.mpfrRoundToFormat]
  rw [← hrmb]
  simp only [hlog]
  have hieee : (rmb : Int) + ((eF : Int) - exponentBias F E - (rmb : Int)) =
      (eF : Int) - exponentBias F E := by ring
  rw [hieee]
  have hcond : 1 - exponentBias F E ≤ (eF : Int) - exponentBias F E := by
    omega
  rw [if_pos hcond]
  have hscale : (eF : Int) - exponentBias F E - (rmb : Int) +
      ((rmb : Int) - ((eF : Int) - exponentBias F E)) = 0 := by ring
  rw [hscale, rnint_exact, mpzToBits_of_lt hmlt]
  have hnocarry : ¬(1 <<< (rmb + 1) ≤ mant) := by
    rw [one_shiftLeft]; omega
  rw [if_neg hnocarry]
  dsimp only
  have hbexp : (eF : Int) - exponentBias F E + exponentBias F E =
      (eF : Int) := by ring
  rw [hbexp]
  have hover : ¬((if E.nan_encoding = NanEncoding.ReservedExponent ∨
      E.inf_encoding = InfEncoding.ReservedExponent then
        ((1 <<< F.exp_bits : ℕ) : Int) - 2
      else ((1 <<< F.exp_bits : ℕ) : Int) - 1) < (eF : Int)) := by
    rw [one_shiftLeft]
    split at hcap <;> rename_i hsch
    · rw [if_pos hsch]; omega
    · rw [if_neg hsch]; omega
  rw [if_neg hover, Int.toNat_natCast]

/-- Subnormal-regime rounding of a value that is already exactly
representable with significand `mant ∈ [1, 2^rmb)` at the minimum
exponent: the scaled-and-rounded integer is `mant` itself, neither
rounding up to the smallest normal nor down to zero. -/
theorem round_fin_subnormal (F : Format) (E : Encoding) {W : ℕ}
    (hstd : F.standard) (hW : F.total_bits ≤ W) (neg : Bool)
    {mant rmb : ℕ}
    (hrmb : rmb = if E.has_implicit_bit then F.mant_bits
      else F.mant_bits - 1)
    (hne : mant ≠ 0) (hhi : mant < 2 ^ rmb) :
    Harness.mpfrRoundToFormat F E W
        (MVal.fin neg mant (1 - exponentBias F E - (rmb : Int))) =
      packResult F W neg 0 mant := by
  obtain ⟨h1, h2, h3, h4, h5, h6, h7⟩ := hstd
  have hlog : Nat.log2 mant < rmb := (Nat.log2_lt hne).mpr hhi
  have hrmbM : rmb ≤ F.mant_bits := by
    rw [hrmb]; split <;> omega
  have hmlt : mant < 2 ^ W := by
    calc mant < 2 ^ rmb := hhi
      _ ≤ 2 ^ W := Nat.pow_le_pow_right (by omega) (by omega)
  simp only [Harness.mpfrRoundToFormat]
  rw [← hrmb]
  have hcond : ¬(1 - exponentBias F E ≤
      (Nat.log2 mant : Int) + (1 - exponentBias F E - (rmb : Int))) := by
    omega
  rw [if_neg hcond]
  have hscale : 1 - exponentBias F E - (rmb : Int) +
      (exponentBias F E - 1 + (rmb : Int)) = 0 := by ring
  rw [hscale, rnint_exact, mpzToBits_of_lt hmlt]
  cases hq : E.has_implicit_bit
  · rw [hq] at hrmb
    simp only [Bool.false_eq_true, if_false] at hrmb ⊢
    subst hrmb
    have hn1 : ¬(1 <<< (F.mant_bits - 1) ≤ mant) := by
      rw [one_shiftLeft]; omega
    rw [if_neg hn1, if_neg hne]
  · rw [hq] at hrmb
    simp only [if_true] at hrmb ⊢
    subst hrmb
    have hn1 : ¬(1 <<< F.mant_bits ≤ mant) := by
      rw [one_shiftLeft]; omega
    rw [if_neg hn1, if_neg hne]

theorem round_zero_eq (F : Format) (E : Encoding) (W : ℕ) (neg : Bool) :
    Harness.mpfrRoundToFormat F E W (MVal.zero neg) =
      zeroBitsPattern F E W neg := by
  simp only [Harness.mpfrRoundToFormat]

theorem if_bool_val {s : ℕ} (hs : s ≤ 1) :
    (if decide (s = 1) then 1 else 0) = s := by
  interval_cases s <;> simp

/-! ## Canonical patterns -/

/-- A canonical non-special field triple `(s, e, m)` of a format, in
the sense of spec §8's round-trip property: field values in range; a
finite (non-reserved) exponent when the encoding reserves the top
exponent for NaN/Inf; for explicit-leading-bit formats the leading bit
consistent with the exponent (set for normals, clear for subnormals);
the negative-zero pattern only when the encoding represents it and
does not re-purpose it as a NaN; and not an integer-extreme infinity
pattern. -/
def Canonical (F : Format) (E : Encoding) (s e m : ℕ) : Prop :=
  s ≤ 1 ∧ e < 2 ^ F.exp_bits ∧ m < 2 ^ F.mant_bits ∧
  ((E.nan_encoding = NanEncoding.ReservedExponent ∨
    E.inf_encoding = InfEncoding.ReservedExponent) →
      e ≤ 2 ^ F.exp_bits - 2) ∧
  (E.has_implicit_bit = false →
      (1 ≤ e → 2 ^ (F.mant_bits - 1) ≤ m) ∧
      (e = 0 → m < 2 ^ (F.mant_bits - 1))) ∧
  (s = 1 ∧ e = 0 ∧ m = 0 →
      E.negative_zero = NegativeZero.Exists ∧
      E.nan_encoding ≠ NanEncoding.TrapValue ∧
      E.nan_encoding ≠ NanEncoding.NegativeZeroBitPattern) ∧
  (E.inf_encoding = InfEncoding.IntegerExtremes →
      ¬(s = 0 ∧ e = 2 ^ F.exp_bits - 1 ∧ m = 2 ^ F.mant_bits - 1) ∧
      ¬(s = 1 ∧ e = 0 ∧ m = 1))

instance (F : Format) (E : Encoding) (s e m : ℕ) :
    Decidable (Canonical F E s e m) := by
  unfold Canonical; infer_instance

theorem trapPattern_eq (F : Format) (hstd : F.standard) :
    trapPattern F = packFields F 1 0 0 := by
  obtain ⟨h1, h2, h3, h4, h5, h6, h7⟩ := hstd
  rw [packFields_eq F ⟨h1, h2, h3, h4, h5, h6, h7⟩ (by omega)
    (Nat.pos_pow_of_pos _ (by omega)) (Nat.pos_pow_of_pos _ (by omega))]
  unfold trapPattern
  rw [one_shiftLeft, h5]
  have : 1 + F.exp_bits + F.mant_bits - 1 = F.exp_bits + F.mant_bits := by
    omega
  rw [this, pow_add]
  ring

theorem posInfPattern_eq (F : Format) (hstd : F.standard) :
    posInfPattern F =
      packFields F 0 (2 ^ F.exp_bits - 1) (2 ^ F.mant_bits - 1) := by
  obtain ⟨h1, h2, h3, h4, h5, h6, h7⟩ := hstd
  rw [packFields_eq F ⟨h1, h2, h3, h4, h5, h6, h7⟩ (by omega)
    (by have := Nat.pos_pow_of_pos F.exp_bits (by norm_num : 0 < 2); omega)
    (by have := Nat.pos_pow_of_pos F.mant_bits (by norm_num : 0 < 2); omega)]
  unfold posInfPattern
  rw [one_shiftLeft, h5]
  have ht : 1 + F.exp_bits + F.mant_bits - 1 = F.exp_bits + F.mant_bits := by
    omega
  rw [ht, pow_add]
  have hE := Nat.pos_pow_of_pos F.exp_bits (by omega : 0 < 2)
  have hM := Nat.pos_pow_of_pos F.mant_bits (by omega : 0 < 2)
  have hsub : (2 ^ F.exp_bits - 1) * 2 ^ F.mant_bits =
      2 ^ F.exp_bits * 2 ^ F.mant_bits - 2 ^ F.mant_bits := by
    rw [Nat.sub_mul, Nat.one_mul]
  rw [Nat.zero_mul, Nat.zero_add, hsub]
  have hprod : 2 ^ F.mant_bits ≤ 2 ^ F.exp_bits * 2 ^ F.mant_bits := by
    nlinarith
  omega

theorem negInfPattern_eq (F : Format) (hstd : F.standard) {W : ℕ}
    (hW : F.total_bits ≤ W) : negInfPattern F W = packFields F 1 0 1 := by
  obtain ⟨h1, h2, h3, h4, h5, h6, h7⟩ := hstd
  have hE := Nat.pos_pow_of_pos F.exp_bits (by omega : 0 < 2)
  have hM1 : 2 ≤ 2 ^ F.mant_bits := by
    calc 2 = 2 ^ 1 := by norm_num
      _ ≤ 2 ^ F.mant_bits := Nat.pow_le_pow_right (by omega) h7
  rw [packFields_eq F ⟨h1, h2, h3, h4, h5, h6, h7⟩ (by omega) hE (by omega)]
  have hval : (1 * 2 ^ F.exp_bits + 0) * 2 ^ F.mant_bits + 1 =
      2 ^ (F.exp_bits + F.mant_bits) + 1 := by
    rw [pow_add]; ring
  rw [hval]
  have hTm : F.total_bits - 1 = F.exp_bits + F.mant_bits := by omega
  have hpos : posInfPattern F = 2 ^ (F.exp_bits + F.mant_bits) - 1 := by
    unfold posInfPattern
    rw [one_shiftLeft, hTm]
  have hEM : 2 ≤ 2 ^ (F.exp_bits + F.mant_bits) := by
    calc 2 = 2 ^ 1 := by norm_num
      _ ≤ 2 ^ (F.exp_bits + F.mant_bits) :=
          Nat.pow_le_pow_right (by omega) (by omega)
  have hT : 2 ^ F.total_bits = 2 * 2 ^ (F.exp_bits + F.mant_bits) := by
    have : F.total_bits = 1 + (F.exp_bits + F.mant_bits) := by omega
    rw [this, pow_add]
    ring
  unfold negInfPattern
  split
  · rw [wordMask_eq, hpos, Nat.and_pow_two_sub_one_eq_mod]
    have harg : 2 ^ F.total_bits - 1 - (2 ^ (F.exp_bits + F.mant_bits) - 1)
        + 1 = 2 ^ (F.exp_bits + F.mant_bits) + 1 := by omega
    rw [harg, Nat.mod_eq_of_lt (by omega)]
  · have hTW : F.total_bits = W := by omega
    rw [wordMask_eq, hpos, ← hTW]
    have harg : 2 ^ F.total_bits - 1 - (2 ^ (F.exp_bits + F.mant_bits) - 1)
        + 1 = 2 ^ (F.exp_bits + F.mant_bits) + 1 := by omega
    rw [harg, Nat.mod_eq_of_lt (by omega)]

theorem decide_ne_zero_eq {s : ℕ} (hs : s ≤ 1) :
    (decide (s ≠ 0)) = (decide (s = 1)) := by
  interval_cases s <;> decide

/-- Phase 1 conditions never fire on a canonical pattern, phase 2
sign-magnitude extraction recovers the fields, and the phase 3
reserved-exponent tests never fire: the harness decoder reduces to
`finishDecode` on the fields. -/
theorem decode_pack_SM (F : Format) (E : Encoding) {W s e m : ℕ}
    (hstd : F.standard) (hW : F.total_bits ≤ W)
    (hsm : E.sign_encoding = SignEncoding.SignMagnitude)
    (hc : Canonical F E s e m) :
    Harness.decodeToMpfr F E W (packFields F s e m) =
      finishDecode F E (decide (s = 1)) e m := by
  obtain ⟨hs, he, hm, hres, hexp, hzero, hext⟩ := hc
  have hlt := packFields_lt F hstd hs he hm
  have hmask : maskBits F W (packFields F s e m) = packFields F s e m :=
    maskBits_of_lt F hlt
  have hE := Nat.pos_pow_of_pos F.exp_bits (by omega : 0 < 2)
  have hM := Nat.pos_pow_of_pos F.mant_bits (by omega : 0 < 2)
  have hM1 : 2 ≤ 2 ^ F.mant_bits := by
    calc 2 = 2 ^ 1 := by norm_num
      _ ≤ 2 ^ F.mant_bits := Nat.pow_le_pow_right (by omega)
          hstd.2.2.2.2.2.2
  have hnotTrap : ¬(E.nan_encoding = NanEncoding.TrapValue ∧
      packFields F s e m = trapPattern F) := by
    rintro ⟨hnan, hpat⟩
    rw [trapPattern_eq F hstd] at hpat
    obtain ⟨hs', he', hm'⟩ := packFields_inj F hstd hs he hm (by omega)
      hE hM hpat
    exact (hzero ⟨hs', he', hm'⟩).2.1 hnan
  have hnotPos : ¬(E.inf_encoding = InfEncoding.IntegerExtremes ∧
      packFields F s e m = posInfPattern F) := by
    rintro ⟨hinf, hpat⟩
    rw [posInfPattern_eq F hstd] at hpat
    obtain ⟨hs', he', hm'⟩ := packFields_inj F hstd hs he hm (by omega)
      (by omega) (by omega) hpat
    exact (hext hinf).1 ⟨hs', he', hm'⟩
  have hnotNeg : ¬(E.inf_encoding = InfEncoding.IntegerExtremes ∧
      packFields F s e m = negInfPattern F W) := by
    rintro ⟨hinf, hpat⟩
    rw [negInfPattern_eq F hstd hW] at hpat
    obtain ⟨hs', he', hm'⟩ := packFields_inj F hstd hs he hm (by omega)
      hE (by omega) hpat
    exact (hext hinf).2 ⟨hs', he', hm'⟩
  have hsx := extract_pack_sign F hstd hs he hm
  have hex := extract_pack_exp F hstd hs he hm
  have hmx := extract_pack_mant F hstd hs he hm
  have hnotNzbp : ¬(E.nan_encoding = NanEncoding.NegativeZeroBitPattern ∧
      extractField (packFields F s e m) F.sign_offset F.sign_bits ≠ 0 ∧
      extractField (packFields F s e m) F.exp_offset F.exp_bits = 0 ∧
      extractField (packFields F s e m) F.mant_offset F.mant_bits = 0) := by
    rintro ⟨hnan, hsn, hen, hmn⟩
    rw [hsx] at hsn
    rw [hex] at hen
    rw [hmx] at hmn
    exact (hzero ⟨by omega, hen, hmn⟩).2.2 hnan
  have hmf : magnitudeFields F E W (packFields F s e m) =
      (decide (s = 1), e, m) := by
    unfold magnitudeFields
    rw [hsm]
    simp only [hsx, hex, hmx]
    rw [decide_ne_zero_eq hs]
  have hE2 : 2 ≤ 2 ^ F.exp_bits := by
    calc 2 = 2 ^ 1 := by norm_num
      _ ≤ 2 ^ F.exp_bits := Nat.pow_le_pow_right (by omega)
          hstd.2.2.2.2.2.1
  have hnotInf : ¬(E.inf_encoding = InfEncoding.ReservedExponent ∧
      (if E.has_implicit_bit then e = wordMask F.exp_bits ∧ m = 0
       else e = wordMask F.exp_bits ∧ m &&& (jBit F - 1) = 0)) := by
    rintro ⟨hinf, hcond⟩
    have hcap := hres (Or.inr hinf)
    rw [wordMask_eq] at hcond
    cases hq : E.has_implicit_bit <;> rw [hq] at hcond <;>
      simp only [if_true, if_false, Bool.false_eq_true] at hcond <;> omega
  have hnotNan : ¬(E.nan_encoding = NanEncoding.ReservedExponent ∧
      e = wordMask F.exp_bits ∧ m ≠ 0) := by
    rintro ⟨hnan, hcond, hmn⟩
    have hcap := hres (Or.inl hnan)
    rw [wordMask_eq] at hcond
    omega
  unfold Harness.decodeToMpfr
  rw [hmask, if_neg hnotTrap, if_neg hnotPos, if_neg hnotNeg,
    if_neg hnotNzbp]
  simp only [hmf, if_neg hnotInf, if_neg hnotNan]

theorem packFields_zero_sign (F : Format) (e m : ℕ) :
    packFields F 0 e m = e <<< F.exp_offset ||| m <<< F.mant_offset := by
  unfold packFields
  rw [Nat.zero_shiftLeft]
  simp

/-- Like `decode_pack_SM`, but for patterns that may be special: the
harness decoder on a packed field triple whose whole-pattern phase 1
checks do not fire reduces to the phase 3 logic on the fields
(requires a clear sign bit or a sign-magnitude encoding, so that
phase 2 is the identity on the magnitude fields). -/
theorem decode_pack_fields (F : Format) (E : Encoding) {W s e m : ℕ}
    (hstd : F.standard) (hW : F.total_bits ≤ W)
    (hsign : s = 0 ∨ E.sign_encoding = SignEncoding.SignMagnitude)
    (hs : s ≤ 1) (he : e < 2 ^ F.exp_bits) (hm : m < 2 ^ F.mant_bits)
    (hnt : ¬(E.nan_encoding = NanEncoding.TrapValue ∧
      packFields F s e m = trapPattern F))
    (hnp : ¬(E.inf_encoding = InfEncoding.IntegerExtremes ∧
      packFields F s e m = posInfPattern F))
    (hnn : ¬(E.inf_encoding = InfEncoding.IntegerExtremes ∧
      packFields F s e m = negInfPattern F W))
    (hnz : ¬(E.nan_encoding = NanEncoding.NegativeZeroBitPattern ∧
      s ≠ 0 ∧ e = 0 ∧ m = 0)) :
    Harness.decodeToMpfr F E W (packFields F s e m) =
      (if E.inf_encoding = InfEncoding.ReservedExponent ∧
          (if E.has_implicit_bit then e = wordMask F.exp_bits ∧ m = 0
           else e = wordMask F.exp_bits ∧ m &&& (jBit F - 1) = 0) then
        MVal.inf (decide (s = 1))
      else if E.nan_encoding = NanEncoding.ReservedExponent ∧
          e = wordMask F.exp_bits ∧ m ≠ 0 then MVal.nan
      else finishDecode F E (decide (s = 1)) e m) := by
  have hlt := packFields_lt F hstd hs he hm
  have hmask : maskBits F W (packFields F s e m) = packFields F s e m :=
    maskBits_of_lt F hlt
  have hsx := extract_pack_sign F hstd hs he hm
  have hex := extract_pack_exp F hstd hs he hm
  have hmx := extract_pack_mant F hstd hs he hm
  have hnz2 : ¬(E.nan_encoding = NanEncoding.NegativeZeroBitPattern ∧
      extractField (packFields F s e m) F.sign_offset F.sign_bits ≠ 0 ∧
      extractField (packFields F s e m) F.exp_offset F.exp_bits = 0 ∧
      extractField (packFields F s e m) F.mant_offset F.mant_bits = 0) := by
    rw [hsx, hex, hmx]
    exact hnz
  have hmf : magnitudeFields F E W (packFields F s e m) =
      (decide (s = 1), e, m) := by
    unfold magnitudeFields
    rcases hsign with hs0 | hsm2
    · subst hs0
      cases E.sign_encoding <;> simp [hsx, hex, hmx]
    · rw [hsm2]
      simp only [hsx, hex, hmx]
      rw [decide_ne_zero_eq hs]
  unfold Harness.decodeToMpfr
  rw [hmask, if_neg hnt, if_neg hnp, if_neg hnn, if_neg hnz2]
  simp only [hmf]

theorem decide_if_bool (neg : Bool) :
    decide ((if neg then 1 else 0 : ℕ) = 1) = neg := by
  cases neg <;> decide

theorem infBitsPattern_eq_pack (F : Format) (E : Encoding) {W : ℕ}
    (hstd : F.standard) (hW : F.total_bits ≤ W) (neg : Bool) :
    infBitsPattern F E W neg =
      packFields F (if neg then 1 else 0) (2 ^ F.exp_bits - 1)
        (if E.has_implicit_bit then 0 else 2 ^ (F.mant_bits - 1)) := by
  have h7 : 1 ≤ F.mant_bits := hstd.2.2.2.2.2.2
  have h6 : 1 ≤ F.exp_bits := hstd.2.2.2.2.2.1
  have hE2 : 2 ≤ 2 ^ F.exp_bits := by
    calc 2 = 2 ^ 1 := by norm_num
      _ ≤ 2 ^ F.exp_bits := Nat.pow_le_pow_right (by omega) h6
  have hmlt : (if E.has_implicit_bit then 0 else 2 ^ (F.mant_bits - 1)) <
      2 ^ F.mant_bits := by
    split
    · exact Nat.pos_pow_of_pos _ (by norm_num)
    · exact Nat.pow_lt_pow_right (by omega) (by omega)
  have hslt : (if neg then 1 else 0) ≤ 1 := by cases neg <;> simp
  have hplt := @packFields_lt F hstd (if neg then 1 else 0)
    (2 ^ F.exp_bits - 1)
    (if E.has_implicit_bit then 0 else 2 ^ (F.mant_bits - 1))
    hslt (by omega) hmlt
  have hT : 2 ^ F.total_bits ≤ 2 ^ W := Nat.pow_le_pow_right (by omega) hW
  have hsgn : (if neg then 1 <<< F.sign_offset else 0) =
      (if neg then 1 else 0) <<< F.sign_offset := by
    cases neg <;> simp [Nat.zero_shiftLeft]
  unfold infBitsPattern
  cases himp : E.has_implicit_bit
  · rw [himp] at hplt
    simp only [Bool.false_eq_true, if_false] at hplt ⊢
    have hgoal : wordMask F.exp_bits <<< F.exp_offset ||| jBit F |||
        (if neg then 1 <<< F.sign_offset else 0) =
        packFields F (if neg then 1 else 0) (2 ^ F.exp_bits - 1)
          (2 ^ (F.mant_bits - 1)) := by
      unfold packFields jBit
      rw [hsgn, wordMask_eq, one_shiftLeft, hstd.2.1, Nat.shiftLeft_zero]
      rw [Nat.lor_comm
        ((2 ^ F.exp_bits - 1) <<< F.exp_offset ||| 2 ^ (F.mant_bits - 1))]
      rw [← Nat.lor_assoc]
    rw [hgoal, Nat.mod_eq_of_lt (by omega)]
  · rw [himp] at hplt
    simp only [if_true] at hplt ⊢
    have hgoal : wordMask F.exp_bits <<< F.exp_offset |||
        (if neg then 1 <<< F.sign_offset else 0) =
        packFields F (if neg then 1 else 0) (2 ^ F.exp_bits - 1) 0 := by
      unfold packFields
      rw [hsgn, wordMask_eq, Nat.zero_shiftLeft, Nat.or_zero,
        Nat.lor_comm]
    rw [hgoal, Nat.mod_eq_of_lt (by omega)]

/-- Round-trip of a canonical pattern through the harness decoder and
rounder, for sign-magnitude encodings. -/
theorem roundtrip_canonical (F : Format) (E : Encoding) {W s e m : ℕ}
    (hstd : F.standard) (hW : F.total_bits ≤ W)
    (hsm : E.sign_encoding = SignEncoding.SignMagnitude)
    (hc : Canonical F E s e m) :
    Harness.mpfrRoundToFormat F E W
        (Harness.decodeToMpfr F E W (packFields F s e m)) =
      packFields F s e m := by
  rw [decode_pack_SM F E hstd hW hsm hc]
  obtain ⟨hs, he, hm, hres, hexp, hzero, hext⟩ := hc
  have h7 : 1 ≤ F.mant_bits := hstd.2.2.2.2.2.2
  have h6 : 1 ≤ F.exp_bits := hstd.2.2.2.2.2.1
  have hE2 : 2 ≤ 2 ^ F.exp_bits := by
    calc 2 = 2 ^ 1 := by norm_num
      _ ≤ 2 ^ F.exp_bits := Nat.pow_le_pow_right (by omega) h6
  have hcap : (e : Int) ≤
      (if E.nan_encoding = NanEncoding.ReservedExponent ∨
          E.inf_encoding = InfEncoding.ReservedExponent then
        ((2 ^ F.exp_bits : ℕ) : Int) - 2
       else ((2 ^ F.exp_bits : ℕ) : Int) - 1) := by
    split <;> rename_i hsch
    · have := hres hsch
      omega
    · omega
  by_cases hzm : e = 0 ∧ m = 0
  · -- the signed-zero pattern: decode gives a signed zero, round
    -- re-emits the sign bit exactly when the encoding allows it
    obtain ⟨he0, hm0⟩ := hzm
    subst he0
    subst hm0
    unfold finishDecode
    rw [if_pos ⟨rfl, rfl⟩]
    interval_cases s
    · have hnegz : (decide ((0:ℕ) = 1)) = false := by decide
      rw [hnegz]
      have hzv : (if E.negative_zero = NegativeZero.Exists then
          MVal.zero false else MVal.zero false) = MVal.zero false := by
        split <;> rfl
      rw [hzv, round_zero_eq]
      unfold zeroBitsPattern
      rw [if_neg (by simp)]
      rw [packFields_eq F hstd (by omega) (by omega)
        (Nat.pos_pow_of_pos _ (by norm_num))]
      omega
    · have hex := hzero ⟨rfl, rfl, rfl⟩
      have hnegz : (decide ((1:ℕ) = 1)) = true := by decide
      rw [hnegz, if_pos hex.1, round_zero_eq]
      unfold zeroBitsPattern
      rw [if_pos ⟨rfl, hex.1⟩]
      rw [← trapPattern_eq F hstd]
      unfold trapPattern
      have h4 := hstd.2.2.2.1
      have h5 := hstd.2.2.2.2.1
      have hso : F.sign_offset = F.total_bits - 1 := by omega
      rw [hso, Nat.mod_eq_of_lt]
      calc 1 <<< (F.total_bits - 1) = 2 ^ (F.total_bits - 1) :=
            one_shiftLeft _
        _ < 2 ^ F.total_bits := Nat.pow_lt_pow_right (by omega) (by omega)
        _ ≤ 2 ^ W := Nat.pow_le_pow_right (by omega) hW
  · -- finite non-zero canonical pattern
    unfold finishDecode
    rw [if_neg hzm]
    cases himp : E.has_implicit_bit
    · -- explicit leading bit
      have hpair := hexp himp
      simp only [Bool.false_eq_true, if_false]
      by_cases he0 : e = 0
      · subst he0
        have hmne : m ≠ 0 := by tauto
        rw [if_pos rfl]
        have hsz : setZ2exp (decide (s = 1)) m
            (1 - exponentBias F E - ((F.mant_bits : Int) - 1)) =
            MVal.fin (decide (s = 1)) m
              (1 - exponentBias F E - ((F.mant_bits - 1 : ℕ) : Int)) := by
          unfold setZ2exp
          rw [if_neg hmne]
          have hcast : ((F.mant_bits - 1 : ℕ) : Int) =
              (F.mant_bits : Int) - 1 := by omega
          rw [hcast]
        rw [hsz, round_fin_subnormal F E hstd hW _ (by rw [himp]; simp)
          hmne (hpair.2 rfl)]
        rw [packResult_eq F hstd hW _ (Nat.pos_pow_of_pos _ (by norm_num))
          (by omega)]
        rw [if_bool_val hs]
      · rw [if_neg he0]
        have hjm : 2 ^ (F.mant_bits - 1) ≤ m := hpair.1 (by omega)
        have hsz : setZ2exp (decide (s = 1)) m
            ((e : Int) - exponentBias F E - ((F.mant_bits : Int) - 1)) =
            MVal.fin (decide (s = 1)) m
              ((e : Int) - exponentBias F E -
                ((F.mant_bits - 1 : ℕ) : Int)) := by
          unfold setZ2exp
          rw [if_neg (by
            have := Nat.pos_pow_of_pos (F.mant_bits - 1) (by norm_num : 0 < 2)
            omega)]
          have hcast : ((F.mant_bits - 1 : ℕ) : Int) =
              (F.mant_bits : Int) - 1 := by omega
          rw [hcast]
        rw [hsz, round_fin_normal F E hstd hW _ (by rw [himp]; simp)
          hjm (by
            have hstep : F.mant_bits - 1 + 1 = F.mant_bits := by omega
            rw [hstep]
            exact hm) (by omega) hcap]
        have hand : m &&& wordMask F.mant_bits = m := by
          rw [wordMask_eq, Nat.and_pow_two_sub_one_eq_mod,
            Nat.mod_eq_of_lt hm]
        rw [hand, packResult_eq F hstd hW _ (by omega) hm, if_bool_val hs]
    · -- implicit leading bit
      simp only [if_true]
      by_cases he0 : e = 0
      · subst he0
        have hmne : m ≠ 0 := by tauto
        rw [if_pos rfl]
        have hsz : setZ2exp (decide (s = 1)) m
            (1 - exponentBias F E - (F.mant_bits : Int)) =
            MVal.fin (decide (s = 1)) m
              (1 - exponentBias F E - ((F.mant_bits : ℕ) : Int)) := by
          unfold setZ2exp
          rw [if_neg hmne]
        rw [hsz, round_fin_subnormal F E hstd hW _ (by rw [himp]; simp)
          hmne hm]
        rw [packResult_eq F hstd hW _ (Nat.pos_pow_of_pos _ (by norm_num))
          hm, if_bool_val hs]
      · rw [if_neg he0]
        have hor : (1 <<< F.mant_bits) ||| m = 2 ^ F.mant_bits + m := by
          rw [one_shiftLeft]
          have := shiftLeft_or_eq_add 1 F.mant_bits m hm
          rw [Nat.one_mul] at this
          exact this
        have hsz : setZ2exp (decide (s = 1)) ((1 <<< F.mant_bits) ||| m)
            ((e : Int) - exponentBias F E - (F.mant_bits : Int)) =
            MVal.fin (decide (s = 1)) (2 ^ F.mant_bits + m)
              ((e : Int) - exponentBias F E -
                ((F.mant_bits : ℕ) : Int)) := by
          unfold setZ2exp
          rw [hor, if_neg (by
            have := Nat.pos_pow_of_pos F.mant_bits (by norm_num : 0 < 2)
            omega)]
        rw [hsz, round_fin_normal F E hstd hW _ (by rw [himp]; simp)
          (by omega) (by
            rw [pow_succ]
            omega) (by omega) hcap]
        have hand : (2 ^ F.mant_bits + m) &&& wordMask F.mant_bits = m := by
          rw [wordMask_eq, Nat.and_pow_two_sub_one_eq_mod]
          have hone : 2 ^ F.mant_bits + m = 1 * 2 ^ F.mant_bits + m := by
            ring
          rw [hone, mod_pack hm]
        rw [hand, packResult_eq F hstd hW _ (by omega) hm, if_bool_val hs]


/-! ## Claim theorems -/

/-- C1 (amended): for every standard-layout format/encoding pair with
`sign_scheme = SignMagnitude` and every canonical (non-special) bit
pattern `b` — a packed field triple satisfying `Canonical` — rounding
the exact value produced by the harness decoder back into the same
format returns `b`: `round(decode(b)) = b`, with round-to-nearest-
ties-to-even semantics.  (As originally stated, over every sign
scheme, the claim fails: for two's-complement and ones'-complement
encodings the rounder re-encodes the magnitude in sign-magnitude form;
see the counterexample.) -/
theorem C1_round_trip_canonical (F : Format) (E : Encoding) (W s e m : ℕ)
    (hstd : F.standard) (hW : F.total_bits ≤ W)
    (hsm : E.sign_encoding = SignEncoding.SignMagnitude)
    (hc : Canonical F E s e m) :
    Harness.mpfrRoundToFormat F E W
        (Harness.decodeToMpfr F E W (packFields F s e m)) =
      packFields F s e m :=
  roundtrip_canonical F E hstd hW hsm hc

/-- C1 counterexample: in the 32-bit two's-complement format
(`RbjFloat<8,23>`), the canonical pattern `0xC0400000` (the
two's-complement encoding of -1.5) decodes to -1.5 but rounds back to
`0xBFC00000` (the sign-magnitude packing), so `round(decode(b)) ≠ b`. -/
theorem C1_counterexample :
    packFields fp32Layout 1 128 0x400000 = 0xC0400000 ∧
    Canonical fp32Layout encodings.RbjTwosComplement 1 128 0x400000 ∧
    Harness.mpfrRoundToFormat fp32Layout encodings.RbjTwosComplement 32
        (Harness.decodeToMpfr fp32Layout encodings.RbjTwosComplement 32
          (packFields fp32Layout 1 128 0x400000)) = 0xBFC00000 ∧
    (0xBFC00000 : ℕ) ≠ 0xC0400000 := by
  refine ⟨by decide, by decide, ?_, by decide⟩
  have hdec : Harness.decodeToMpfr fp32Layout encodings.RbjTwosComplement 32
      (packFields fp32Layout 1 128 0x400000) =
      MVal.fin true 0xC00000
        (((127 : ℕ) : Int) -
          exponentBias fp32Layout encodings.RbjTwosComplement -
          ((23 : ℕ) : Int)) := by decide
  rw [hdec, round_fin_normal fp32Layout encodings.RbjTwosComplement
    (by decide) (by decide) true (by decide) (by decide) (by decide)
    (by decide) (by decide)]
  decide

/-- C1 witness: the round-trip theorem applied to IEEE binary32 at the
canonical pattern of 1.0 (`0x3F800000`). -/
theorem C1_witness :
    Harness.mpfrRoundToFormat fp32Layout encodings.IEEE754 32
        (Harness.decodeToMpfr fp32Layout encodings.IEEE754 32
          (packFields fp32Layout 0 127 0)) =
      packFields fp32Layout 0 127 0 :=
  C1_round_trip_canonical fp32Layout encodings.IEEE754 32 0 127 0
    (by decide) (by decide) (by decide) (by decide)

/-- C2 (amended): for formats whose NaN scheme is `ReservedExponent`
(and whose infinity scheme is not `IntegerExtremes`), round of NaN
yields the canonical NaN pattern and the decoder classifies it as NaN;
for formats with `ReservedExponent` infinities and sign-magnitude sign
encoding, round of ±Infinity round-trips to the same signed infinity.
(As originally stated — for every `nan_scheme ≠ None` and every
`inf_scheme ≠ None` — the claim fails: for `TrapValue` and
`NegativeZeroPattern` NaNs and for `IntegerExtremes` infinities the
rounder returns the all-zero pattern; see the counterexample.) -/
theorem C2_special_value_closure (F : Format) (E : Encoding) (W : ℕ)
    (hstd : F.standard) (hW : F.total_bits ≤ W)
    (hM2 : E.has_implicit_bit = false → 2 ≤ F.mant_bits) :
    (E.nan_encoding = NanEncoding.ReservedExponent →
      E.inf_encoding ≠ InfEncoding.IntegerExtremes →
      Harness.decodeToMpfr F E W
        (Harness.mpfrRoundToFormat F E W MVal.nan) = MVal.nan) ∧
    (E.inf_encoding = InfEncoding.ReservedExponent →
      E.sign_encoding = SignEncoding.SignMagnitude →
      ∀ sb : Bool, Harness.decodeToMpfr F E W
        (Harness.mpfrRoundToFormat F E W (MVal.inf sb)) = MVal.inf sb) := by
  have h7 : 1 ≤ F.mant_bits := hstd.2.2.2.2.2.2
  have h6 : 1 ≤ F.exp_bits := hstd.2.2.2.2.2.1
  have hE2 : 2 ≤ 2 ^ F.exp_bits := by
    calc 2 = 2 ^ 1 := by norm_num
      _ ≤ 2 ^ F.exp_bits := Nat.pow_le_pow_right (by omega) h6
  constructor
  · -- NaN closure for reserved-exponent NaNs
    intro hnan hIE
    simp only [Harness.mpfrRoundToFormat]
    rw [if_pos hnan]
    cases himp : E.has_implicit_bit
    · -- explicit leading bit: quiet NaN is J=1 with top fraction bit
      have hM2m := hM2 himp
      simp only [Bool.false_eq_true, if_false]
      have ha : 2 ^ (F.mant_bits - 1) = 2 * 2 ^ (F.mant_bits - 2) := by
        rw [← pow_succ']
        congr 1
        omega
      have hb : 2 ^ F.mant_bits = 2 * 2 ^ (F.mant_bits - 1) := by
        rw [← pow_succ']
        congr 1
        omega
      have hq2 := Nat.pos_pow_of_pos (F.mant_bits - 2) (by norm_num : 0 < 2)
      have hjq : jBit F ||| 1 <<< (F.mant_bits - 2) =
          2 ^ (F.mant_bits - 1) + 2 ^ (F.mant_bits - 2) := by
        unfold jBit
        rw [one_shiftLeft, one_shiftLeft]
        have hstep := shiftLeft_or_eq_add 1 (F.mant_bits - 1)
          (2 ^ (F.mant_bits - 2)) (by omega)
        rw [Nat.one_mul] at hstep
        exact hstep
      have hm2 : 2 ^ (F.mant_bits - 1) + 2 ^ (F.mant_bits - 2) <
          2 ^ F.mant_bits := by omega
      have hpk : wordMask F.exp_bits <<< F.exp_offset ||| jBit F |||
          1 <<< (F.mant_bits - 2) =
          packFields F 0 (2 ^ F.exp_bits - 1)
            (2 ^ (F.mant_bits - 1) + 2 ^ (F.mant_bits - 2)) := by
        rw [Nat.lor_assoc, hjq, packFields_zero_sign, hstd.2.1,
          Nat.shiftLeft_zero, wordMask_eq]
      have hplt := @packFields_lt F hstd 0 (2 ^ F.exp_bits - 1)
        (2 ^ (F.mant_bits - 1) + 2 ^ (F.mant_bits - 2)) (by omega)
        (by omega) hm2
      rw [hpk, Nat.mod_eq_of_lt (by
        have := Nat.pow_le_pow_right (by omega : 1 ≤ 2) hW
        omega)]
      rw [decode_pack_fields F E hstd hW (Or.inl rfl) (by omega) (by omega)
        hm2 (by simp [hnan]) (by rintro ⟨hcon, -⟩; exact hIE hcon)
        (by rintro ⟨hcon, -⟩; exact hIE hcon) (by simp [hnan])]
      rw [himp]
      have hfrac : (2 ^ (F.mant_bits - 1) + 2 ^ (F.mant_bits - 2)) &&&
          (jBit F - 1) = 2 ^ (F.mant_bits - 2) := by
        unfold jBit
        rw [one_shiftLeft, Nat.and_pow_two_sub_one_eq_mod]
        have hone : 2 ^ (F.mant_bits - 1) + 2 ^ (F.mant_bits - 2) =
            1 * 2 ^ (F.mant_bits - 1) + 2 ^ (F.mant_bits - 2) := by ring
        rw [hone, mod_pack (by omega)]
      rw [if_neg (by
        rintro ⟨-, -, hcon⟩
        rw [hfrac] at hcon
        omega)]
      rw [if_pos ⟨hnan, by rw [wordMask_eq], by omega⟩]
    · -- implicit bit: quiet NaN is the top mantissa bit
      simp only [if_true]
      have hmm : 2 ^ (F.mant_bits - 1) < 2 ^ F.mant_bits :=
        Nat.pow_lt_pow_right (by omega) (by omega)
      have hq1 := Nat.pos_pow_of_pos (F.mant_bits - 1) (by norm_num : 0 < 2)
      have hpk : wordMask F.exp_bits <<< F.exp_offset |||
          1 <<< (F.mant_bits - 1) =
          packFields F 0 (2 ^ F.exp_bits - 1) (2 ^ (F.mant_bits - 1)) := by
        rw [one_shiftLeft, packFields_zero_sign, hstd.2.1,
          Nat.shiftLeft_zero, wordMask_eq]
      have hplt := @packFields_lt F hstd 0 (2 ^ F.exp_bits - 1)
        (2 ^ (F.mant_bits - 1)) (by omega) (by omega) hmm
      rw [hpk, Nat.mod_eq_of_lt (by
        have := Nat.pow_le_pow_right (by omega : 1 ≤ 2) hW
        omega)]
      rw [decode_pack_fields F E hstd hW (Or.inl rfl) (by omega) (by omega)
        hmm (by simp [hnan]) (by rintro ⟨hcon, -⟩; exact hIE hcon)
        (by rintro ⟨hcon, -⟩; exact hIE hcon) (by simp [hnan])]
      rw [himp]
      rw [if_neg (by rintro ⟨-, -, hcon⟩; omega)]
      rw [if_pos ⟨hnan, by rw [wordMask_eq], by omega⟩]
  · -- Infinity closure for reserved-exponent infinities
    intro hinf hsm sb
    simp only [Harness.mpfrRoundToFormat]
    rw [if_pos hinf, infBitsPattern_eq_pack F E hstd hW sb]
    have hmlt : (if E.has_implicit_bit then 0 else 2 ^ (F.mant_bits - 1)) <
        2 ^ F.mant_bits := by
      split
      · exact Nat.pos_pow_of_pos _ (by norm_num)
      · exact Nat.pow_lt_pow_right (by omega) (by omega)
    have hslt : (if sb then 1 else 0) ≤ 1 := by cases sb <;> simp
    rw [decode_pack_fields F E hstd hW (Or.inr hsm) hslt (by omega) hmlt
      (by
        rintro ⟨-, hpat⟩
        rw [trapPattern_eq F hstd] at hpat
        obtain ⟨-, hcon, -⟩ := packFields_inj F hstd hslt (by omega) hmlt
          (by omega) (Nat.pos_pow_of_pos _ (by norm_num))
          (Nat.pos_pow_of_pos _ (by norm_num)) hpat
        omega)
      (by rintro ⟨hcon, -⟩; rw [hinf] at hcon; exact absurd hcon (by decide))
      (by rintro ⟨hcon, -⟩; rw [hinf] at hcon; exact absurd hcon (by decide))
      (by rintro ⟨-, -, hcon, -⟩; omega)]
    rw [if_pos ⟨hinf, by
      cases himp : E.has_implicit_bit
      · simp only [Bool.false_eq_true, if_false]
        refine ⟨by rw [wordMask_eq], ?_⟩
        unfold jBit
        rw [one_shiftLeft, Nat.and_pow_two_sub_one_eq_mod, Nat.mod_self]
      · simp only [if_true]
        exact ⟨by rw [wordMask_eq], by trivial⟩⟩]
    rw [decide_if_bool]

/-- C2 counterexample: the 32-bit two's-complement format
(`RbjFloat<8,23>`, `nan_scheme = TrapValue ≠ None`): round of NaN
returns the all-zero pattern, which the decoder classifies as +0, not
NaN. -/
theorem C2_counterexample :
    encodings.RbjTwosComplement.nan_encoding ≠ NanEncoding.None ∧
    Harness.mpfrRoundToFormat fp32Layout encodings.RbjTwosComplement 32
      MVal.nan = 0 ∧
    Harness.decodeToMpfr fp32Layout encodings.RbjTwosComplement 32
        (Harness.mpfrRoundToFormat fp32Layout encodings.RbjTwosComplement 32
          MVal.nan) = MVal.zero false := by
  refine ⟨by decide, by decide, by decide⟩

/-- C2 witness: NaN and -Infinity closure on IEEE binary32. -/
theorem C2_witness :
    Harness.decodeToMpfr fp32Layout encodings.IEEE754 32
        (Harness.mpfrRoundToFormat fp32Layout encodings.IEEE754 32
          MVal.nan) = MVal.nan ∧
    Harness.decodeToMpfr fp32Layout encodings.IEEE754 32
        (Harness.mpfrRoundToFormat fp32Layout encodings.IEEE754 32
          (MVal.inf true)) = MVal.inf true := by
  have h := C2_special_value_closure fp32Layout encodings.IEEE754 32
    (by decide) (by decide) (by decide)
  exact ⟨h.1 (by decide) (by decide), h.2 (by decide) (by decide) true⟩


/-- C6 (amended): `ValidEncoding` accepts exactly the policies that
satisfy the spec §3 cross-field invariants other than "IntegerExtremes
Inf requires TwosComplement", which the concept does not check.  (As
originally stated the claim fails: see the counterexample, a
sign-magnitude policy with integer-extreme infinities that
`ValidEncoding` accepts.) -/
theorem C6_validation_iff (E : Encoding) :
    ValidEncoding E ↔ SpecInvariantsChecked E := by
  obtain ⟨se, ib, eb, nz, ne, ie, dm⟩ := E
  cases se <;> cases nz <;> cases ne <;> cases ie <;>
    simp [ValidEncoding, SpecInvariantsChecked]

/-- C6 counterexample: the policy with sign-magnitude sign encoding
and `IntegerExtremes` infinities passes `ValidEncoding`, although the
spec's invariant list (which the claim says is checked exhaustively)
requires such a policy to be rejected. -/
theorem C6_counterexample :
    ValidEncoding
      { sign_encoding := SignEncoding.SignMagnitude,
        has_implicit_bit := true, exponent_bias := AutoBias,
        negative_zero := NegativeZero.DoesNotExist,
        nan_encoding := NanEncoding.None,
        inf_encoding := InfEncoding.IntegerExtremes,
        denormal_mode := DenormalMode.Full } ∧
    ¬ SpecInvariants
      { sign_encoding := SignEncoding.SignMagnitude,
        has_implicit_bit := true, exponent_bias := AutoBias,
        negative_zero := NegativeZero.DoesNotExist,
        nan_encoding := NanEncoding.None,
        inf_encoding := InfEncoding.IntegerExtremes,
        denormal_mode := DenormalMode.Full } := by
  refine ⟨by decide, by decide⟩

/-- C7: in the 32-bit trap-value-NaN, integer-extremes-infinity
format (`RbjFloat<8,23>`), `0x80000000` decodes to NaN, `0x7FFFFFFF`
to +Infinity and `0x80000001` to -Infinity.  The NaN result at
`0x80000000` shows the trap check takes precedence (without it the
pattern would decode as the negation of zero). -/
theorem C7_trap_and_integer_extremes :
    Harness.decodeToMpfr fp32Layout encodings.RbjTwosComplement 32
      0x80000000 = MVal.nan ∧
    Harness.decodeToMpfr fp32Layout encodings.RbjTwosComplement 32
      0x7FFFFFFF = MVal.inf false ∧
    Harness.decodeToMpfr fp32Layout encodings.RbjTwosComplement 32
      0x80000001 = MVal.inf true := by
  refine ⟨by decide, by decide, by decide⟩


theorem xor_high_bit {s : ℕ} (hs : s ≤ 1) :
    ∀ n r, r < 2 ^ n → (s * 2 ^ n + r) ^^^ 2 ^ n = (1 - s) * 2 ^ n + r := by
  intro n
  induction n with
  | zero =>
    intro r hr
    interval_cases r
    interval_cases s <;> decide
  | succ n ih =>
    intro r hr
    have hr2 : r / 2 < 2 ^ n := by
      have h2 : r < 2 * 2 ^ n := by rw [pow_succ] at hr; omega
      omega
    have h1 : s * 2 ^ (n + 1) + r =
        Nat.bit (r % 2 = 1) (s * 2 ^ n + r / 2) := by
      rcases Nat.mod_two_eq_zero_or_one r with h | h <;>
        simp [Nat.bit, h, pow_succ] <;> ring_nf <;> omega
    have h2 : (2 : ℕ) ^ (n + 1) = Nat.bit false (2 ^ n) := by
      simp [Nat.bit, pow_succ]
      ring
    have h3 : (1 - s) * 2 ^ (n + 1) + r =
        Nat.bit (r % 2 = 1) ((1 - s) * 2 ^ n + r / 2) := by
      rcases Nat.mod_two_eq_zero_or_one r with h | h <;>
        simp [Nat.bit, h, pow_succ] <;> ring_nf <;> omega
    rw [h1, h3, h2, Nat.xor_bit]
    have h4 := ih (r / 2) hr2
    rcases Nat.mod_two_eq_zero_or_one r with h | h <;>
      simp [h, h4]

theorem pack_decomp (F : Format) (hstd : F.standard) {b : ℕ}
    (hb : b < 2 ^ F.total_bits) :
    b = packFields F (extractField b F.sign_offset F.sign_bits)
          (extractField b F.exp_offset F.exp_bits)
          (extractField b F.mant_offset F.mant_bits) ∧
    extractField b F.sign_offset F.sign_bits ≤ 1 ∧
    extractField b F.exp_offset F.exp_bits < 2 ^ F.exp_bits ∧
    extractField b F.mant_offset F.mant_bits < 2 ^ F.mant_bits := by
  obtain ⟨h1, h2, h3, h4, h5, h6, h7⟩ := hstd
  have hEpos := Nat.pos_pow_of_pos F.exp_bits (by norm_num : 0 < 2)
  have hMpos := Nat.pos_pow_of_pos F.mant_bits (by norm_num : 0 < 2)
  have hsx : extractField b F.sign_offset F.sign_bits =
      b / 2 ^ (F.mant_bits + F.exp_bits) % 2 := by
    rw [extractField_eq _ _ _ (by omega), h4, h1, pow_one]
  have hex : extractField b F.exp_offset F.exp_bits =
      b / 2 ^ F.mant_bits % 2 ^ F.exp_bits := by
    rw [extractField_eq _ _ _ (by omega), h3]
  have hmx : extractField b F.mant_offset F.mant_bits =
      b % 2 ^ F.mant_bits := by
    rw [extractField_eq _ _ _ (by omega), h2, pow_zero, Nat.div_one]
  have hsb : b / 2 ^ (F.mant_bits + F.exp_bits) % 2 ≤ 1 := by
    have := Nat.mod_lt (b / 2 ^ (F.mant_bits + F.exp_bits))
      (by norm_num : 0 < 2)
    omega
  have heb : b / 2 ^ F.mant_bits % 2 ^ F.exp_bits < 2 ^ F.exp_bits :=
    Nat.mod_lt _ hEpos
  have hmb : b % 2 ^ F.mant_bits < 2 ^ F.mant_bits := Nat.mod_lt _ hMpos
  refine ⟨?_, by rw [hsx]; exact hsb, by rw [hex]; exact heb,
    by rw [hmx]; exact hmb⟩
  rw [hsx, hex, hmx,
    packFields_eq F ⟨h1, h2, h3, h4, h5, h6, h7⟩ hsb heb hmb]
  -- reassemble b from its digit groups
  have hq : b / 2 ^ (F.mant_bits + F.exp_bits) < 2 := by
    rw [Nat.div_lt_iff_lt_mul (Nat.pos_pow_of_pos _ (by norm_num))]
    calc b < 2 ^ F.total_bits := hb
      _ = 2 ^ (F.mant_bits + F.exp_bits) * 2 := by
          rw [h5, ← pow_succ]
          congr 1
          omega
      _ ≤ 2 * 2 ^ (F.mant_bits + F.exp_bits) := by omega
  have hqq : b / 2 ^ (F.mant_bits + F.exp_bits) % 2 =
      b / 2 ^ (F.mant_bits + F.exp_bits) := Nat.mod_eq_of_lt hq
  rw [hqq]
  have hdd : b / 2 ^ (F.mant_bits + F.exp_bits) =
      b / 2 ^ F.mant_bits / 2 ^ F.exp_bits := by
    rw [Nat.div_div_eq_div_mul, ← pow_add]
  rw [hdd]
  have key : ∀ x p q : ℕ, x = (x / p / q * q + x / p % q) * p + x % p := by
    intro x p q
    have e1 := Nat.div_add_mod x p
    have e2 := Nat.div_add_mod (x / p) q
    have e3 : x / p / q * q + x / p % q = x / p := by
      rw [Nat.mul_comm]
      exact e2
    calc x = x / p * p + x % p := by rw [Nat.mul_comm]; exact e1.symm
      _ = (x / p / q * q + x / p % q) * p + x % p := by rw [e3]
  exact key b (2 ^ F.mant_bits) (2 ^ F.exp_bits)

theorem packFields_xor_sign (F : Format) (hstd : F.standard) {s e m : ℕ}
    (hs : s ≤ 1) (he : e < 2 ^ F.exp_bits) (hm : m < 2 ^ F.mant_bits) :
    packFields F s e m ^^^ (1 <<< F.sign_offset) =
      packFields F (1 - s) e m := by
  obtain ⟨h1, h2, h3, h4, h5, h6, h7⟩ := hstd
  rw [packFields_eq F ⟨h1, h2, h3, h4, h5, h6, h7⟩ hs he hm,
    packFields_eq F ⟨h1, h2, h3, h4, h5, h6, h7⟩ (by omega) he hm,
    one_shiftLeft, h4]
  have hrem : e * 2 ^ F.mant_bits + m < 2 ^ (F.mant_bits + F.exp_bits) := by
    rw [pow_add]
    calc e * 2 ^ F.mant_bits + m
        < e * 2 ^ F.mant_bits + 2 ^ F.mant_bits := by omega
      _ = (e + 1) * 2 ^ F.mant_bits := by ring
      _ ≤ 2 ^ F.exp_bits * 2 ^ F.mant_bits :=
          Nat.mul_le_mul_right _ (by omega)
      _ = 2 ^ F.mant_bits * 2 ^ F.exp_bits := by ring
  have hL : (s * 2 ^ F.exp_bits + e) * 2 ^ F.mant_bits + m =
      s * 2 ^ (F.mant_bits + F.exp_bits) + (e * 2 ^ F.mant_bits + m) := by
    rw [pow_add]
    ring
  have hR : ((1 - s) * 2 ^ F.exp_bits + e) * 2 ^ F.mant_bits + m =
      (1 - s) * 2 ^ (F.mant_bits + F.exp_bits) +
        (e * 2 ^ F.mant_bits + m) := by
    rw [pow_add]
    ring
  rw [hL, hR, xor_high_bit hs _ _ hrem]

theorem finishDecode_fin_swap (F : Format) (E : Encoding) (e m : ℕ)
    (n1 n2 : Bool) {nP : Bool} {mm : ℕ} {xx : Int}
    (h : finishDecode F E n1 e m = MVal.fin nP mm xx) :
    nP = n1 ∧ finishDecode F E n2 e m = MVal.fin n2 mm xx := by
  unfold finishDecode setZ2exp at h ⊢
  dsimp only at h ⊢
  split_ifs at h ⊢ <;>
    first
      | exact MVal.noConfusion h
      | (injection h with hA hB hC
         exact ⟨hA.symm, by rw [hB, hC]⟩)

theorem decide_one_sub {s : ℕ} (hs : s ≤ 1) :
    (decide (1 - s = 1)) = !(decide (s = 1)) := by
  interval_cases s <;> decide

/-- C5 (amended): for sign-magnitude encodings whose infinity scheme
is not `IntegerExtremes`, flipping the sign bit of any pattern that
decodes to a finite non-zero value negates the decoded value, leaving
its magnitude unchanged.  (As originally stated — for every sign
scheme — the claim fails: under two's complement the flipped pattern
re-decodes through whole-word negation and yields a different
magnitude, and under ones' complement the magnitude fields are
re-inverted; see the counterexample.) -/
theorem C5_sign_symmetry (F : Format) (E : Encoding) (W b : ℕ)
    (hstd : F.standard) (hW : F.total_bits ≤ W)
    (hsm : E.sign_encoding = SignEncoding.SignMagnitude)
    (hIE : E.inf_encoding ≠ InfEncoding.IntegerExtremes)
    (hb : b < 2 ^ F.total_bits) (neg : Bool) (mant : ℕ) (ex : Int)
    (hdec : Harness.decodeToMpfr F E W b = MVal.fin neg mant ex) :
    Harness.decodeToMpfr F E W (b ^^^ (1 <<< F.sign_offset)) =
      MVal.fin (!neg) mant ex := by
  obtain ⟨hbpack, hs, he, hm⟩ := pack_decomp F hstd hb
  set s0 := extractField b F.sign_offset F.sign_bits with hs0def
  set e0 := extractField b F.exp_offset F.exp_bits with he0def
  set m0 := extractField b F.mant_offset F.mant_bits with hm0def
  rw [hbpack] at hdec ⊢
  have hE2 : 2 ≤ 2 ^ F.exp_bits := by
    calc 2 = 2 ^ 1 := by norm_num
      _ ≤ 2 ^ F.exp_bits := Nat.pow_le_pow_right (by omega)
          hstd.2.2.2.2.2.1
  have hM2 : 2 ≤ 2 ^ F.mant_bits := by
    calc 2 = 2 ^ 1 := by norm_num
      _ ≤ 2 ^ F.mant_bits := Nat.pow_le_pow_right (by omega)
          hstd.2.2.2.2.2.2
  have hlt := packFields_lt F hstd hs he hm
  have hnt : ¬(E.nan_encoding = NanEncoding.TrapValue ∧
      packFields F s0 e0 m0 = trapPattern F) := by
    intro hcond
    have hnanval : Harness.decodeToMpfr F E W (packFields F s0 e0 m0) =
        MVal.nan := by
      unfold Harness.decodeToMpfr
      rw [maskBits_of_lt F hlt, if_pos hcond]
    rw [hnanval] at hdec
    exact absurd hdec (by simp)
  have hnp : ¬(E.inf_encoding = InfEncoding.IntegerExtremes ∧
      packFields F s0 e0 m0 = posInfPattern F) := by
    rintro ⟨hcon, -⟩
    exact hIE hcon
  have hnn : ¬(E.inf_encoding = InfEncoding.IntegerExtremes ∧
      packFields F s0 e0 m0 = negInfPattern F W) := by
    rintro ⟨hcon, -⟩
    exact hIE hcon
  have hnz : ¬(E.nan_encoding = NanEncoding.NegativeZeroBitPattern ∧
      s0 ≠ 0 ∧ e0 = 0 ∧ m0 = 0) := by
    intro hcond
    have hnanval : Harness.decodeToMpfr F E W (packFields F s0 e0 m0) =
        MVal.nan := by
      unfold Harness.decodeToMpfr
      rw [maskBits_of_lt F hlt]
      rw [if_neg (by
        rintro ⟨hcon, -⟩
        rw [hcond.1] at hcon
        exact absurd hcon (by decide))]
      rw [if_neg (by rintro ⟨hcon, -⟩; exact hIE hcon)]
      rw [if_neg (by rintro ⟨hcon, -⟩; exact hIE hcon)]
      rw [if_pos ⟨hcond.1, by
        rw [extract_pack_sign F hstd hs he hm]
        exact hcond.2.1, by
        rw [extract_pack_exp F hstd hs he hm]
        exact hcond.2.2.1, by
        rw [extract_pack_mant F hstd hs he hm]
        exact hcond.2.2.2⟩]
    rw [hnanval] at hdec
    exact absurd hdec (by simp)
  rw [decode_pack_fields F E hstd hW (Or.inr hsm) hs he hm hnt hnp hnn
    hnz] at hdec
  have hic : ¬(E.inf_encoding = InfEncoding.ReservedExponent ∧
      (if E.has_implicit_bit then e0 = wordMask F.exp_bits ∧ m0 = 0
       else e0 = wordMask F.exp_bits ∧ m0 &&& (jBit F - 1) = 0)) := by
    intro hcon
    rw [if_pos hcon] at hdec
    exact absurd hdec (by simp)
  rw [if_neg hic] at hdec
  have hnc : ¬(E.nan_encoding = NanEncoding.ReservedExponent ∧
      e0 = wordMask F.exp_bits ∧ m0 ≠ 0) := by
    intro hcon
    rw [if_pos hcon] at hdec
    exact absurd hdec (by simp)
  rw [if_neg hnc] at hdec
  have hezm : ¬(e0 = 0 ∧ m0 = 0) := by
    rintro ⟨h01, h02⟩
    rw [h01, h02] at hdec
    unfold finishDecode at hdec
    rw [if_pos ⟨rfl, rfl⟩] at hdec
    split at hdec <;> exact absurd hdec (by simp)
  rw [packFields_xor_sign F hstd hs he hm]
  have hs2 : 1 - s0 ≤ 1 := by omega
  have hlt2 := packFields_lt F hstd hs2 he hm
  have hnt2 : ¬(E.nan_encoding = NanEncoding.TrapValue ∧
      packFields F (1 - s0) e0 m0 = trapPattern F) := by
    rintro ⟨-, hpat⟩
    rw [trapPattern_eq F hstd] at hpat
    obtain ⟨-, hpe, hpm⟩ := packFields_inj F hstd hs2 he hm (by omega)
      (by omega) (by omega) hpat
    exact hezm ⟨hpe, hpm⟩
  have hnz2 : ¬(E.nan_encoding = NanEncoding.NegativeZeroBitPattern ∧
      (1 - s0) ≠ 0 ∧ e0 = 0 ∧ m0 = 0) := by
    rintro ⟨-, -, hpe, hpm⟩
    exact hezm ⟨hpe, hpm⟩
  rw [decode_pack_fields F E hstd hW (Or.inr hsm) hs2 he hm hnt2
    (by rintro ⟨hcon, -⟩; exact hIE hcon)
    (by rintro ⟨hcon, -⟩; exact hIE hcon) hnz2]
  rw [if_neg hic, if_neg hnc]
  obtain ⟨hneg, hswap⟩ := finishDecode_fin_swap F E e0 m0
    (decide (s0 = 1)) (decide (1 - s0 = 1)) hdec
  rw [decide_one_sub hs] at hswap
  rw [hneg, decide_one_sub hs]
  exact hswap

/-- C5 counterexample: in the 32-bit two's-complement format,
`0x40400000` decodes to 1.5 but its sign-bit-flipped pattern
`0xC0400000` decodes to -0.75 — the negation with a different
magnitude, because two's-complement decode negates the whole word. -/
theorem C5_counterexample :
    Harness.decodeToMpfr fp32Layout encodings.RbjTwosComplement 32
      0x40400000 = MVal.fin false 0xC00000 (-23) ∧
    Harness.decodeToMpfr fp32Layout encodings.RbjTwosComplement 32
        (0x40400000 ^^^ (1 <<< fp32Layout.sign_offset)) =
      MVal.fin true 0xC00000 (-24) ∧
    MVal.fin true 0xC00000 (-24) ≠ MVal.fin true 0xC00000 (-23) := by
  refine ⟨by decide, by decide, by decide⟩

/-- C5 witness: sign symmetry applied to IEEE binary32 at 1.0. -/
theorem C5_witness :
    Harness.decodeToMpfr fp32Layout encodings.IEEE754 32
        (0x3F800000 ^^^ (1 <<< fp32Layout.sign_offset)) =
      MVal.fin (!false) 8388608 (-23) :=
  C5_sign_symmetry fp32Layout encodings.IEEE754 32 0x3F800000 (by decide)
    (by decide) (by decide) (by decide) (by decide) false 8388608 (-23)
    (by decide)

/-- The oracle decoder (`mpfr_exact.hpp`) on a positive-sign packed
pattern of an explicit-leading-bit sign-magnitude format with
`ReservedExponent` NaN and infinity schemes: no phase 1 special fires,
and phase 3 reduces to the oracle's leading-bit infinity test and its
complementary NaN test over the packed fields. -/
theorem oracle_decode_pack_explicit (F : Format) (E : Encoding)
    (W e m : ℕ) (hstd : F.standard)
    (himp : E.has_implicit_bit = false)
    (hSM : E.sign_encoding = SignEncoding.SignMagnitude)
    (hnanR : E.nan_encoding = NanEncoding.ReservedExponent)
    (hinfR : E.inf_encoding = InfEncoding.ReservedExponent)
    (he : e < 2 ^ F.exp_bits) (hm : m < 2 ^ F.mant_bits) :
    Oracle.decodeToMpfr F E W (packFields F 0 e m) =
      if e = wordMask F.exp_bits ∧ m &&& jBit F ≠ 0 ∧
          m &&& (jBit F - 1) = 0 then MVal.inf false
      else if e = wordMask F.exp_bits ∧
          ¬(m &&& jBit F ≠ 0 ∧ m &&& (jBit F - 1) = 0) ∧ m ≠ 0 then
        MVal.nan
      else finishDecode F E false e m := by
  have hlt := packFields_lt F hstd (by omega : (0:ℕ) ≤ 1) he hm
  have hmask : maskBits F W (packFields F 0 e m) = packFields F 0 e m :=
    maskBits_of_lt F hlt
  have hsx := extract_pack_sign F hstd (by omega : (0:ℕ) ≤ 1) he hm
  have hex := extract_pack_exp F hstd (by omega : (0:ℕ) ≤ 1) he hm
  have hmx := extract_pack_mant F hstd (by omega : (0:ℕ) ≤ 1) he hm
  have hmf : magnitudeFields F E W (packFields F 0 e m) =
      (false, e, m) := by
    simp [magnitudeFields, hSM, hsx, hex, hmx]
  unfold Oracle.decodeToMpfr
  rw [hmask,
    if_neg (by
      rintro ⟨hcon, -⟩
      rw [hnanR] at hcon
      exact NanEncoding.noConfusion hcon),
    if_neg (by
      rintro ⟨hcon, -⟩
      rw [hinfR] at hcon
      exact InfEncoding.noConfusion hcon),
    if_neg (by
      rintro ⟨hcon, -⟩
      rw [hinfR] at hcon
      exact InfEncoding.noConfusion hcon),
    if_neg (by
      rintro ⟨hcon, -⟩
      rw [hnanR] at hcon
      exact NanEncoding.noConfusion hcon)]
  simp only [hmf, himp, Bool.false_eq_true, if_false, hinfR, hnanR,
    eq_self_iff_true, true_and]

/-- C3: for every standard-layout explicit-leading-bit sign-magnitude
format with `ReservedExponent` NaN and infinity schemes (at least two
exponent bits), the oracle decoder maps unnormal and pseudo-denormal
patterns by the uniform explicit-bit formula, so
`decode({exp=1, sig}) = decode({exp=0, sig})` for every nonzero
significand — the spec's concrete scenario 3 — and classifies every
pseudo-NaN pattern (max exponent, leading bit clear, fraction
nonzero) as NaN; but the pseudo-infinity pattern (max exponent,
leading bit clear, fraction zero) decodes to `+0` while its canonical
counterpart (leading bit set) decodes to `+Infinity`, so the claimed
equivalence fails on the pseudo-infinity class. -/
theorem C3_noncanonical_equivalence (F : Format) (E : Encoding)
    (W sig frac : ℕ) (hstd : F.standard) (hE2 : 2 ≤ F.exp_bits)
    (himp : E.has_implicit_bit = false)
    (hSM : E.sign_encoding = SignEncoding.SignMagnitude)
    (hnanR : E.nan_encoding = NanEncoding.ReservedExponent)
    (hinfR : E.inf_encoding = InfEncoding.ReservedExponent)
    (hsig : sig < 2 ^ F.mant_bits) (hsig0 : sig ≠ 0)
    (hfrac : frac < jBit F) (hfrac0 : frac ≠ 0) :
    Oracle.decodeToMpfr F E W (packFields F 0 1 sig) =
      Oracle.decodeToMpfr F E W (packFields F 0 0 sig) ∧
    Oracle.decodeToMpfr F E W
        (packFields F 0 (wordMask F.exp_bits) frac) = MVal.nan ∧
    Oracle.decodeToMpfr F E W
        (packFields F 0 (wordMask F.exp_bits) 0) = MVal.zero false ∧
    Oracle.decodeToMpfr F E W
        (packFields F 0 (wordMask F.exp_bits) (jBit F)) =
      MVal.inf false := by
  have hstd' := hstd
  obtain ⟨h1b, h0m, heo, hso, htot, hE1, hM1⟩ := hstd
  have hp4 : 4 ≤ 2 ^ F.exp_bits := by
    calc (4:ℕ) = 2 ^ 2 := by norm_num
      _ ≤ 2 ^ F.exp_bits := Nat.pow_le_pow_right (by norm_num) hE2
  have hwm : wordMask F.exp_bits = 2 ^ F.exp_bits - 1 := wordMask_eq _
  have hj : jBit F = 2 ^ (F.mant_bits - 1) := by
    unfold jBit
    rw [Nat.shiftLeft_eq, one_mul]
  have hjM : jBit F < 2 ^ F.mant_bits := by
    rw [hj]
    exact Nat.pow_lt_pow_right (by norm_num) (by omega)
  have hjpos : 0 < jBit F := by
    rw [hj]
    exact Nat.pos_pow_of_pos _ (by norm_num)
  have hMp : (0:ℕ) < 2 ^ F.mant_bits := Nat.pos_pow_of_pos _ (by norm_num)
  refine ⟨?_, ?_, ?_, ?_⟩
  · -- unnormal and pseudo-denormal: exponents 1 and 0 decode alike
    rw [oracle_decode_pack_explicit F E W 1 sig hstd' himp hSM hnanR
        hinfR (by omega) hsig,
      oracle_decode_pack_explicit F E W 0 sig hstd' himp hSM hnanR
        hinfR (by omega) hsig,
      if_neg (by rintro ⟨hcon, -⟩; rw [hwm] at hcon; omega),
      if_neg (by rintro ⟨hcon, -⟩; rw [hwm] at hcon; omega),
      if_neg (by rintro ⟨hcon, -⟩; rw [hwm] at hcon; omega),
      if_neg (by rintro ⟨hcon, -⟩; rw [hwm] at hcon; omega)]
    simp [finishDecode, himp, hsig0]
  · -- pseudo-NaN: leading bit clear, fraction nonzero, classified NaN
    have hJ0 : frac &&& jBit F = 0 := by
      rw [hj] at hfrac ⊢
      rw [Nat.and_two_pow, Nat.testBit_lt_two_pow hfrac]
      simp
    rw [oracle_decode_pack_explicit F E W (wordMask F.exp_bits) frac
        hstd' himp hSM hnanR hinfR (by omega) (by omega),
      if_neg (by rintro ⟨-, hcon, -⟩; exact hcon hJ0),
      if_pos ⟨rfl, fun hcc => hcc.1 hJ0, hfrac0⟩]
  · -- pseudo-infinity: decodes as +0, not as Infinity
    rw [oracle_decode_pack_explicit F E W (wordMask F.exp_bits) 0
        hstd' himp hSM hnanR hinfR (by omega) hMp,
      if_neg (by rintro ⟨-, hcon, -⟩; exact hcon (Nat.zero_and _)),
      if_neg (by rintro ⟨-, -, hcon⟩; exact hcon rfl)]
    have hwm0 : wordMask F.exp_bits ≠ 0 := by rw [hwm]; omega
    simp [finishDecode, himp, hwm0, setZ2exp]
  · -- canonical infinity: leading bit set, classified Infinity
    rw [oracle_decode_pack_explicit F E W (wordMask F.exp_bits)
        (jBit F) hstd' himp hSM hnanR hinfR (by omega) hjM,
      if_pos ⟨rfl, by rw [Nat.and_self]; omega,
        by rw [hj, Nat.and_pow_two_sub_one_eq_mod, Nat.mod_self]⟩]

/-- C3 witness: the classification applied to the 80-bit format at
the scenario-3 significand `2^63 - 1` and pseudo-NaN fraction 1. -/
theorem C3_witness :
    Oracle.decodeToMpfr ext80Layout encodings.ExtFloat80 80
        (packFields ext80Layout 0 1 0x7FFFFFFFFFFFFFFF) =
      Oracle.decodeToMpfr ext80Layout encodings.ExtFloat80 80
        (packFields ext80Layout 0 0 0x7FFFFFFFFFFFFFFF) ∧
    Oracle.decodeToMpfr ext80Layout encodings.ExtFloat80 80
        (packFields ext80Layout 0 (wordMask ext80Layout.exp_bits) 1) =
      MVal.nan ∧
    Oracle.decodeToMpfr ext80Layout encodings.ExtFloat80 80
        (packFields ext80Layout 0 (wordMask ext80Layout.exp_bits) 0) =
      MVal.zero false ∧
    Oracle.decodeToMpfr ext80Layout encodings.ExtFloat80 80
        (packFields ext80Layout 0 (wordMask ext80Layout.exp_bits)
          (jBit ext80Layout)) = MVal.inf false :=
  C3_noncanonical_equivalence ext80Layout encodings.ExtFloat80 80
    0x7FFFFFFFFFFFFFFF 1 (by decide) (by decide) rfl rfl rfl rfl
    (by decide) (by decide) (by decide) (by decide)


/-- C4 (amended): the harness decoder (`impl_mpfr.hpp`) and the oracle
decoder (`mpfr_exact.hpp`) return the same result for every pattern
except, in explicit-leading-bit formats, the max-exponent patterns
with zero fraction field where their phase-3 tests differ: with
`ReservedExponent` infinities the pseudo-infinity patterns (leading
bit clear) decode as ±Infinity in the harness but as ±0 in the
oracle, and with `ReservedExponent` NaN but non-`ReservedExponent`
infinities the canonical-infinity-shaped patterns (leading bit set)
decode as NaN in the harness but as finite values in the oracle.  (As
originally stated — agreement on every pattern, in particular on
explicit-bit patterns with maximum exponent — the claim fails; see
the counterexample.) -/
theorem C4_decoders_agree (F : Format) (E : Encoding) (W bits : ℕ)
    (hx : E.has_implicit_bit = false →
      ¬((magnitudeFields F E W (maskBits F W bits)).2.1 =
          wordMask F.exp_bits ∧
        (magnitudeFields F E W (maskBits F W bits)).2.2 &&&
          (jBit F - 1) = 0 ∧
        ((E.inf_encoding = InfEncoding.ReservedExponent ∧
           (magnitudeFields F E W (maskBits F W bits)).2.2 &&&
             jBit F = 0) ∨
         (E.inf_encoding ≠ InfEncoding.ReservedExponent ∧
           E.nan_encoding = NanEncoding.ReservedExponent ∧
           (magnitudeFields F E W (maskBits F W bits)).2.2 &&&
             jBit F ≠ 0)))) :
    Harness.decodeToMpfr F E W bits = Oracle.decodeToMpfr F E W bits := by
  simp only [Harness.decodeToMpfr, Oracle.decodeToMpfr]
  by_cases h1 : E.nan_encoding = NanEncoding.TrapValue ∧
      maskBits F W bits = trapPattern F
  · rw [if_pos h1, if_pos h1]
  rw [if_neg h1, if_neg h1]
  by_cases h2 : E.inf_encoding = InfEncoding.IntegerExtremes ∧
      maskBits F W bits = posInfPattern F
  · rw [if_pos h2, if_pos h2]
  rw [if_neg h2, if_neg h2]
  by_cases h3 : E.inf_encoding = InfEncoding.IntegerExtremes ∧
      maskBits F W bits = negInfPattern F W
  · rw [if_pos h3, if_pos h3]
  rw [if_neg h3, if_neg h3]
  by_cases h4 : E.nan_encoding = NanEncoding.NegativeZeroBitPattern ∧
      extractField (maskBits F W bits) F.sign_offset F.sign_bits ≠ 0 ∧
      extractField (maskBits F W bits) F.exp_offset F.exp_bits = 0 ∧
      extractField (maskBits F W bits) F.mant_offset F.mant_bits = 0
  · rw [if_pos h4, if_pos h4]
  rw [if_neg h4, if_neg h4]
  cases himp : E.has_implicit_bit
  · -- explicit leading bit: the decoders differ only on the excluded set
    have hexcl := hx himp
    simp only [Bool.false_eq_true, if_false]
    by_cases hexp : (magnitudeFields F E W (maskBits F W bits)).2.1 =
        wordMask F.exp_bits
    · by_cases hie : E.inf_encoding = InfEncoding.ReservedExponent
      · by_cases hfrac : (magnitudeFields F E W (maskBits F W bits)).2.2 &&&
            (jBit F - 1) = 0
        · by_cases hJ : (magnitudeFields F E W (maskBits F W bits)).2.2 &&&
              jBit F = 0
          · exact absurd ⟨hexp, hfrac, Or.inl ⟨hie, hJ⟩⟩ hexcl
          · rw [if_pos ⟨hie, hexp, hfrac⟩, if_pos ⟨hie, hexp, hJ, hfrac⟩]
        · -- low fraction bits nonzero: no infinity on either side
          have hmm : (magnitudeFields F E W (maskBits F W bits)).2.2 ≠
              0 := by
            intro h0
            rw [h0] at hfrac
            exact hfrac (Nat.zero_and _)
          by_cases hnan : E.nan_encoding = NanEncoding.ReservedExponent
          · rw [if_neg (by rintro ⟨-, -, hcon⟩; exact hfrac hcon),
              if_pos ⟨hnan, hexp, hmm⟩,
              if_neg (by rintro ⟨-, -, -, hcon⟩; exact hfrac hcon),
              if_pos ⟨hnan, hexp, fun hc => hfrac hc.2, hmm⟩]
          · rw [if_neg (by rintro ⟨-, -, hcon⟩; exact hfrac hcon),
              if_neg (by rintro ⟨hcon, -⟩; exact hnan hcon),
              if_neg (by rintro ⟨-, -, -, hcon⟩; exact hfrac hcon),
              if_neg (by rintro ⟨hcon, -⟩; exact hnan hcon)]
      · -- infinity scheme is not ReservedExponent
        by_cases hnan : E.nan_encoding = NanEncoding.ReservedExponent
        · by_cases hJf : (magnitudeFields F E W (maskBits F W bits)).2.2 &&&
              jBit F ≠ 0 ∧
              (magnitudeFields F E W (maskBits F W bits)).2.2 &&&
                (jBit F - 1) = 0
          · exact absurd ⟨hexp, hJf.2, Or.inr ⟨hie, hnan, hJf.1⟩⟩ hexcl
          · by_cases hmm : (magnitudeFields F E W (maskBits F W bits)).2.2 =
                0
            · rw [if_neg (by rintro ⟨hcon, -⟩; exact hie hcon),
                if_neg (by rintro ⟨-, -, hcon⟩; exact hcon hmm),
                if_neg (by rintro ⟨hcon, -⟩; exact hie hcon),
                if_neg (by rintro ⟨-, -, -, hcon⟩; exact hcon hmm)]
            · rw [if_neg (by rintro ⟨hcon, -⟩; exact hie hcon),
                if_pos ⟨hnan, hexp, hmm⟩,
                if_neg (by rintro ⟨hcon, -⟩; exact hie hcon),
                if_pos ⟨hnan, hexp, hJf, hmm⟩]
        · rw [if_neg (by rintro ⟨hcon, -⟩; exact hie hcon),
            if_neg (by rintro ⟨hcon, -⟩; exact hnan hcon),
            if_neg (by rintro ⟨hcon, -⟩; exact hie hcon),
            if_neg (by rintro ⟨hcon, -⟩; exact hnan hcon)]
    · -- exponent field below maximum: no phase 3 special fires
      rw [if_neg (by rintro ⟨-, hcon, -⟩; exact hexp hcon),
        if_neg (by rintro ⟨-, hcon, -⟩; exact hexp hcon),
        if_neg (by rintro ⟨-, hcon, -⟩; exact hexp hcon),
        if_neg (by rintro ⟨-, hcon, -⟩; exact hexp hcon)]
  · -- implicit leading bit: the phase 3 tests coincide
    simp only [eq_self_iff_true, if_true]

/-- C4 counterexample: the 80-bit pseudo-infinity pattern (exponent
field `0x7FFF`, significand 0) decodes to +Infinity in the harness
decoder but to +0 in the oracle decoder. -/
theorem C4_counterexample :
    Harness.decodeToMpfr ext80Layout encodings.ExtFloat80 80
      (packFields ext80Layout 0 0x7FFF 0) = MVal.inf false ∧
    Oracle.decodeToMpfr ext80Layout encodings.ExtFloat80 80
      (packFields ext80Layout 0 0x7FFF 0) = MVal.zero false ∧
    MVal.inf false ≠ MVal.zero false := by
  refine ⟨by decide, by decide, by decide⟩

/-- C4 witness: the two decoders agree on the 80-bit canonical pattern
of 1.0 (exponent `0x3FFF`, leading bit set). -/
theorem C4_witness :
    Harness.decodeToMpfr ext80Layout encodings.ExtFloat80 80
        (packFields ext80Layout 0 0x3FFF (1 <<< 63)) =
      Oracle.decodeToMpfr ext80Layout encodings.ExtFloat80 80
        (packFields ext80Layout 0 0x3FFF (1 <<< 63)) :=
  C4_decoders_agree ext80Layout encodings.ExtFloat80 80
    (packFields ext80Layout 0 0x3FFF (1 <<< 63)) (by decide)


/-- `finishDecode` never produces a NaN: phases 4 and 5 yield only
zeros and finite values. -/
theorem finishDecode_ne_nan (F : Format) (E : Encoding) (neg : Bool)
    (magExp magMant : ℕ) : finishDecode F E neg magExp magMant ≠ MVal.nan := by
  simp only [finishDecode, setZ2exp]
  split_ifs <;> simp

/-- For a standard-layout implicit-bit sign-magnitude format with
`ReservedExponent` NaNs and non-`IntegerExtremes` infinities, the
comparator's NaN bit test agrees exactly with the harness decoder's
NaN classification. -/
theorem nanAwareIsNan_iff_decode_nan (F : Format) (E : Encoding)
    (hstd : F.standard) (himp : E.has_implicit_bit = true)
    (hSM : E.sign_encoding = SignEncoding.SignMagnitude)
    (hnan : E.nan_encoding = NanEncoding.ReservedExponent)
    (hIE : E.inf_encoding ≠ InfEncoding.IntegerExtremes) (bits : ℕ) :
    NanAwareIsNan F E bits = true ↔
      Harness.decodeToMpfr F E F.total_bits bits = MVal.nan := by
  obtain ⟨h1b, h0m, heo, hso, htot, hE1, hM1⟩ := hstd
  have hmask : maskBits F F.total_bits bits = bits := by
    simp [maskBits]
  have hextE : extractField bits F.exp_offset F.exp_bits =
      (bits >>> F.exp_offset) &&& wordMask F.exp_bits := by
    simp only [extractField, wordMask]
    rw [if_neg (by omega)]
  have hextM : extractField bits F.mant_offset F.mant_bits =
      bits &&& ((1 <<< F.mant_bits) - 1) := by
    simp only [extractField, h0m]
    rw [if_neg (by omega), Nat.shiftRight_zero]
  simp only [NanAwareIsNan, hnan, Harness.decodeToMpfr, hmask,
    magnitudeFields, hSM, himp, eq_self_iff_true, if_true, true_and,
    decide_eq_true_iff]
  rw [if_neg (by rintro ⟨hcon, -⟩; exact NanEncoding.noConfusion hcon),
    if_neg (by rintro ⟨hcon, -⟩; exact hIE hcon),
    if_neg (by rintro ⟨hcon, -⟩; exact hIE hcon),
    if_neg (by rintro ⟨hcon, -⟩; exact NanEncoding.noConfusion hcon),
    hextE, hextM]
  by_cases hc : (bits >>> F.exp_offset) &&& wordMask F.exp_bits =
      wordMask F.exp_bits ∧ bits &&& ((1 <<< F.mant_bits) - 1) ≠ 0
  · rw [if_neg (by rintro ⟨-, -, hcon⟩; exact hc.2 hcon), if_pos hc]
    exact iff_of_true hc rfl
  · by_cases hinf : E.inf_encoding = InfEncoding.ReservedExponent ∧
        (bits >>> F.exp_offset) &&& wordMask F.exp_bits =
          wordMask F.exp_bits ∧
        bits &&& ((1 <<< F.mant_bits) - 1) = 0
    · rw [if_pos hinf]
      exact iff_of_false hc (by simp)
    · rw [if_neg hinf, if_neg hc]
      exact iff_of_false hc (finishDecode_ne_nan F E _ _ _)

/-- C8: for every standard-layout format paired with an implicit-bit
sign-magnitude encoding using `ReservedExponent` NaNs and
non-`IntegerExtremes` infinities, the NaN-aware comparator accepts two
outputs iff both bit patterns decode to NaN or the patterns are equal.
(As originally stated — for explicit-leading-bit formats as well — the
claim fails: there the comparator's mantissa test includes the
explicit leading bit, so the canonical Infinity patterns satisfy its
NaN test and a canonical Infinity output compares equal to any NaN
output; see the counterexample.) -/
theorem C8_nan_aware_comparator (F : Format) (E : Encoding)
    (A B : TestOutput) (hstd : F.standard)
    (himp : E.has_implicit_bit = true)
    (hSM : E.sign_encoding = SignEncoding.SignMagnitude)
    (hnan : E.nan_encoding = NanEncoding.ReservedExponent)
    (hIE : E.inf_encoding ≠ InfEncoding.IntegerExtremes) :
    NanAwareBitExact F E A B = true ↔
      ((Harness.decodeToMpfr F E F.total_bits A.Bits = MVal.nan ∧
        Harness.decodeToMpfr F E F.total_bits B.Bits = MVal.nan) ∨
       A.Bits = B.Bits) := by
  have hA := nanAwareIsNan_iff_decode_nan F E
    ⟨(by exact hstd.1), hstd.2.1, hstd.2.2.1, hstd.2.2.2.1, hstd.2.2.2.2.1,
      hstd.2.2.2.2.2.1, hstd.2.2.2.2.2.2⟩ himp hSM hnan hIE A.Bits
  have hB := nanAwareIsNan_iff_decode_nan F E
    ⟨(by exact hstd.1), hstd.2.1, hstd.2.2.1, hstd.2.2.2.1, hstd.2.2.2.2.1,
      hstd.2.2.2.2.2.1, hstd.2.2.2.2.2.2⟩ himp hSM hnan hIE B.Bits
  simp only [NanAwareBitExact]
  by_cases h : NanAwareIsNan F E A.Bits = true ∧
      NanAwareIsNan F E B.Bits = true
  · rw [if_pos h]
    exact iff_of_true rfl (Or.inl ⟨hA.mp h.1, hB.mp h.2⟩)
  · rw [if_neg h, decide_eq_true_iff]
    constructor
    · exact Or.inr
    · rintro (⟨ha, hb⟩ | hab)
      · exact absurd ⟨hA.mpr ha, hB.mpr hb⟩ h
      · exact hab

/-- C8 counterexample: in the 80-bit explicit-leading-bit format, the
canonical +Infinity output (which both decoders classify as Infinity,
not NaN) compares equal under the NaN-aware comparator to a quiet-NaN
output with different bits. -/
theorem C8_counterexample :
    NanAwareBitExact ext80Layout encodings.ExtFloat80
      ⟨(0x7FFF <<< 64) ||| (1 <<< 63), 0⟩
      ⟨(0x7FFF <<< 64) ||| (1 <<< 63) ||| (1 <<< 62), 0⟩ = true ∧
    ((0x7FFF <<< 64) ||| (1 <<< 63) : ℕ) ≠
      ((0x7FFF <<< 64) ||| (1 <<< 63) ||| (1 <<< 62) : ℕ) ∧
    Harness.decodeToMpfr ext80Layout encodings.ExtFloat80 80
      ((0x7FFF <<< 64) ||| (1 <<< 63)) = MVal.inf false ∧
    Oracle.decodeToMpfr ext80Layout encodings.ExtFloat80 80
      ((0x7FFF <<< 64) ||| (1 <<< 63)) = MVal.inf false := by
  refine ⟨by decide, by decide, by decide, by decide⟩

/-- C8 witness: the comparator characterization instantiated at
binary32/IEEE 754 on two equal all-zero outputs. -/
theorem C8_witness :
    NanAwareBitExact fp32Layout encodings.IEEE754
        (TestOutput.mk 0 0) (TestOutput.mk 0 0) = true ↔
      ((Harness.decodeToMpfr fp32Layout encodings.IEEE754
          fp32Layout.total_bits (TestOutput.mk 0 0).Bits = MVal.nan ∧
        Harness.decodeToMpfr fp32Layout encodings.IEEE754
          fp32Layout.total_bits (TestOutput.mk 0 0).Bits = MVal.nan) ∨
       (TestOutput.mk 0 0).Bits = (TestOutput.mk 0 0).Bits) :=
  C8_nan_aware_comparator fp32Layout encodings.IEEE754
    (TestOutput.mk 0 0) (TestOutput.mk 0 0) (by decide) rfl rfl rfl
    (by decide)

/-- Invariant of the `testAgainst` fold: starting from any accumulator
whose failure list is within the cap, the counters advance by the pair
count and the pass/mismatch split, and the failure list extends by the
earliest mismatches up to the remaining capacity. -/
theorem testStep_fold (A B : ℕ → ℕ → TestOutput)
    (Cmp : TestOutput → TestOutput → Bool) (pairs : List (ℕ × ℕ)) :
    ∀ acc : TestResult × List Failure,
      acc.2.length ≤ MaxReportedFailures →
      (pairs.foldl (testStep A B Cmp) acc).1.Total =
          acc.1.Total + pairs.length ∧
      (pairs.foldl (testStep A B Cmp) acc).1.Passed +
          (pairs.foldl (testStep A B Cmp) acc).1.Failed =
        acc.1.Passed + acc.1.Failed + pairs.length ∧
      (pairs.foldl (testStep A B Cmp) acc).1.Failed =
        acc.1.Failed +
          (pairs.filter fun p => ! Cmp (A p.1 p.2) (B p.1 p.2)).length ∧
      (pairs.foldl (testStep A B Cmp) acc).2 =
        acc.2 ++
          ((pairs.filter fun p => ! Cmp (A p.1 p.2) (B p.1 p.2)).map
            fun p => Failure.mk p.1 p.2 (A p.1 p.2) (B p.1 p.2)).take
            (MaxReportedFailures - acc.2.length) := by
  induction pairs with
  | nil => intro acc hacc; simp
  | cons p rest ih =>
    intro acc hacc
    rw [List.foldl_cons]
    by_cases hcmp : Cmp (A p.1 p.2) (B p.1 p.2) = true
    · have hstep : testStep A B Cmp acc p =
          ({ acc.1 with
              Total := acc.1.Total + 1, Passed := acc.1.Passed + 1 }, acc.2) := by
        simp only [testStep]
        rw [if_pos hcmp]
      rw [hstep]
      obtain ⟨ih1, ih2, ih3, ih4⟩ :=
        ih ({ acc.1 with
              Total := acc.1.Total + 1, Passed := acc.1.Passed + 1 }, acc.2) hacc
      have hfilter : (p :: rest).filter
          (fun q => ! Cmp (A q.1 q.2) (B q.1 q.2)) =
          rest.filter fun q => ! Cmp (A q.1 q.2) (B q.1 q.2) := by
        simp [List.filter_cons, hcmp]
      refine ⟨?_, ?_, ?_, ?_⟩
      · rw [ih1]; simp only [List.length_cons]; omega
      · rw [ih2]; simp only [List.length_cons]; omega
      · rw [ih3, hfilter]
      · rw [ih4, hfilter]
    · have hcmpf : Cmp (A p.1 p.2) (B p.1 p.2) = false := by
        revert hcmp; cases Cmp (A p.1 p.2) (B p.1 p.2) <;> simp
      have hfilter : (p :: rest).filter
          (fun q => ! Cmp (A q.1 q.2) (B q.1 q.2)) =
          p :: rest.filter fun q => ! Cmp (A q.1 q.2) (B q.1 q.2) := by
        simp [List.filter_cons, hcmpf]
      by_cases hlen : acc.2.length < MaxReportedFailures
      · have hstep : testStep A B Cmp acc p =
            ({ acc.1 with
              Total := acc.1.Total + 1, Failed := acc.1.Failed + 1 },
             acc.2 ++ [⟨p.1, p.2, A p.1 p.2, B p.1 p.2⟩]) := by
          simp only [testStep]
          rw [if_neg (by rw [hcmpf]; exact Bool.false_ne_true),
            if_pos hlen]
        rw [hstep]
        obtain ⟨ih1, ih2, ih3, ih4⟩ :=
          ih ({ acc.1 with
              Total := acc.1.Total + 1, Failed := acc.1.Failed + 1 },
            acc.2 ++ [⟨p.1, p.2, A p.1 p.2, B p.1 p.2⟩])
            (by simp; omega)
        refine ⟨?_, ?_, ?_, ?_⟩
        · rw [ih1]; simp only [List.length_cons]; omega
        · rw [ih2]; simp only [List.length_cons]; omega
        · rw [ih3, hfilter]; simp only [List.length_cons]; omega
        · rw [ih4, hfilter]
          simp only [List.map_cons, List.length_append,
            List.length_cons, List.length_nil]
          have htake : MaxReportedFailures - acc.2.length =
              (MaxReportedFailures - (acc.2.length + 0 + 1)) + 1 := by
            omega
          rw [htake, List.take_succ_cons, List.append_assoc,
            List.singleton_append]
      · have hstep : testStep A B Cmp acc p =
            ({ acc.1 with
              Total := acc.1.Total + 1, Failed := acc.1.Failed + 1 }, acc.2) := by
          simp only [testStep]
          rw [if_neg (by rw [hcmpf]; exact Bool.false_ne_true),
            if_neg hlen]
        rw [hstep]
        obtain ⟨ih1, ih2, ih3, ih4⟩ :=
          ih ({ acc.1 with
              Total := acc.1.Total + 1, Failed := acc.1.Failed + 1 }, acc.2) hacc
        have htake : MaxReportedFailures - acc.2.length = 0 := by omega
        refine ⟨?_, ?_, ?_, ?_⟩
        · rw [ih1]; simp only [List.length_cons]; omega
        · rw [ih2]; simp only [List.length_cons]; omega
        · rw [ih3, hfilter]; simp only [List.length_cons]; omega
        · rw [ih4, hfilter]
          rw [htake, List.take_zero, List.take_zero, List.append_nil]

/-- C9: for every yielded pair list and every pair of opaque
implementations, the harness run processes every pair (a mismatch
never aborts iteration): Total equals the number of pairs, Passed +
Failed = Total, the reported failure records are exactly the first
`MaxReportedFailures` mismatches in iteration order, and exactly
`min Failed MaxReportedFailures` records are reported. -/
theorem C9_run_to_completion (pairs : List (ℕ × ℕ))
    (A B : ℕ → ℕ → TestOutput) (Cmp : TestOutput → TestOutput → Bool) :
    (testAgainst pairs A B Cmp).1.Total = pairs.length ∧
    (testAgainst pairs A B Cmp).1.Passed +
        (testAgainst pairs A B Cmp).1.Failed =
      (testAgainst pairs A B Cmp).1.Total ∧
    (testAgainst pairs A B Cmp).2 =
      ((pairs.filter fun p => ! Cmp (A p.1 p.2) (B p.1 p.2)).map
        fun p => Failure.mk p.1 p.2 (A p.1 p.2) (B p.1 p.2)).take
        MaxReportedFailures ∧
    (testAgainst pairs A B Cmp).2.length =
      min (testAgainst pairs A B Cmp).1.Failed MaxReportedFailures := by
  obtain ⟨h1, h2, h3, h4⟩ :=
    testStep_fold A B Cmp pairs (⟨0, 0, 0⟩, []) (by simp)
  simp only [testAgainst]
  simp only [List.length_nil, Nat.sub_zero, List.nil_append, Nat.zero_add,
    Nat.add_zero] at h1 h2 h3 h4
  refine ⟨?_, ?_, ?_, ?_⟩
  · exact h1
  · rw [h1]; exact h2
  · exact h4
  · rw [h4, h3, List.length_take, List.length_map]
    exact Nat.min_comm _ _

/-- With the storage word exactly `total_bits` wide, every randomly
generated value lies within the format's bit range. -/
theorem genRandomValue_lt (F : Format) (rng : ℕ → ℕ) (base : ℕ) :
    genRandomValue F F.total_bits rng base < 2 ^ F.total_bits := by
  simp only [genRandomValue]
  rw [if_neg (lt_irrefl _)]
  exact Nat.mod_lt _ (Nat.pos_pow_of_pos _ (by norm_num))

/-- C10: input generation is deterministic and in range.  Two runs of
the random-pair strategy with equal seed and count, over PRNG streams
that agree on the shared seed (the seeded `std::mt19937_64` stream is
a function of the seed alone), yield the identical pair sequence; with
the storage word exactly `total_bits` wide, every edge-case pattern
and every randomly generated pattern lies below `2 ^ total_bits`.
(The edge-case generator is a pure function of the format and
encoding, so its determinism — the same finite list in the same order
on every call — holds definitionally in this model.) -/
theorem C10_generation_deterministic (F : Format) (E : Encoding) (W : ℕ)
    (rngA rngB : ℕ → ℕ → ℕ) (SA SB : RandomPairs)
    (hseed : SA.Seed = SB.Seed) (hcount : SA.Count = SB.Count)
    (hstream : ∀ i, rngA SA.Seed i = rngB SB.Seed i) :
    randomPairsRun F W rngA SA = randomPairsRun F W rngB SB ∧
    (∀ x ∈ interestingValues F E F.total_bits, x < 2 ^ F.total_bits) ∧
    (∀ q ∈ randomPairsRun F F.total_bits rngA SA,
      q.1 < 2 ^ F.total_bits ∧ q.2 < 2 ^ F.total_bits) := by
  have hfun : rngA SA.Seed = rngB SB.Seed := funext hstream
  refine ⟨?_, ?_, ?_⟩
  · simp only [randomPairsRun]
    rw [hcount, hfun]
  · intro x hx
    simp only [interestingValues] at hx
    rw [List.mem_map] at hx
    obtain ⟨y, -, rfl⟩ := hx
    exact Nat.mod_lt _ (Nat.pos_pow_of_pos _ (by norm_num))
  · intro q hq
    simp only [randomPairsRun] at hq
    rw [List.mem_map] at hq
    obtain ⟨i, -, rfl⟩ := hq
    exact ⟨genRandomValue_lt F _ _, genRandomValue_lt F _ _⟩

/-- C10 witness: the determinism and range statement instantiated at
binary32 with two concretely equal seeded streams. -/
theorem C10_witness :
    randomPairsRun fp32Layout 32 (fun s i => s + i)
        (RandomPairs.mk 42 3) =
      randomPairsRun fp32Layout 32 (fun s i => s * 1 + i)
        (RandomPairs.mk 42 3) ∧
    (∀ x ∈ interestingValues fp32Layout encodings.IEEE754
        fp32Layout.total_bits, x < 2 ^ fp32Layout.total_bits) ∧
    (∀ q ∈ randomPairsRun fp32Layout fp32Layout.total_bits
        (fun s i => s + i) (RandomPairs.mk 42 3),
      q.1 < 2 ^ fp32Layout.total_bits ∧ q.2 < 2 ^ fp32Layout.total_bits) :=
  C10_generation_deterministic fp32Layout encodings.IEEE754 32
    (fun s i => s + i) (fun s i => s * 1 + i)
    (RandomPairs.mk 42 3) (RandomPairs.mk 42 3) rfl rfl
    (fun i => by simp)

end Opine
